import Mathlib

/-!
Erasure-coding configuration sweep (`erasure.go`).

A shallow embedding of `main`, `validateInput`, `getInputFileSize`, `checkErr` and
`cleanUpShards` of `erasure.go`, followed by theorems about the shard-count validator,
the configuration sweep and the read-quorum probe loop.

Conventions of the embedding:

* Go `int` values are `Int`; the program only ever handles values between `-1` and a
  few hundred once `validateInput` has passed, so no wrap-around is modelled.
  `/` and `%` of Go are `Int.tdiv` and `Int.tmod` (truncation toward zero).
* `os.Exit` and run-time panics are the error side of `Except Abort`.
* A byte slice is a `List Nat`; a `nil` slice inside `[][]byte` is `none`.
* The `reedsolomon` encoder and the file system are outside the repository; they are
  parameters (`Encoder`, `Env`) and every theorem quantifies over them.
* A table cell keeps the number that the program prints instead of its decimal string:
  `Cell.int n` for `strconv.Itoa(n)` and `Cell.ratio r` for the formatted quotient `r`,
  where `r` is the exact rational value of the floating-point division, or an infinity or
  not-a-number when the divisor is zero.
* The size of the input file (`Stat().Size()`) and the bytes read from it
  (`ioutil.ReadFile`) are two separate inputs of the program.
* The probe loop and the sweep loop carry a ghost log each (the `Reconstruct` calls, the
  configurations at the start of every iteration); the logs influence no result.
-/

namespace Erasure

/-! ## Data model -/

/-- Early termination of the process: `os.Exit(code)` or an index-out-of-range panic. -/
inductive Abort
  | exit (code : Nat)
  | indexOutOfRange
  deriving DecidableEq, Repr

/-- One shard: a `[]byte`. -/
abbrev Shard := List Nat

/-- The shard set `[][]byte`; `none` is a `nil` entry (an absent shard). -/
abbrev Shards := List (Option Shard)

/-- Value of the `float64` division of two integers, before formatting: the exact
quotient, or an infinity or not-a-number when the divisor is zero. -/
inductive Ratio
  | finite (q : ℚ)
  | posInf
  | negInf
  | nan
  deriving DecidableEq

/-- One cell of a table row. -/
inductive Cell
  | int (n : Int)
  | ratio (r : Ratio)
  deriving DecidableEq

/-- One table row, `[]string` in the source. -/
abbrev Row := List Cell

/-- The value returned by `reedsolomon.New(dataShards, parityShards)`. `Reconstruct` and
`Encode` receive the slice header by value, so they cannot change its length; that is
recorded in the two length fields. `reconstruct` returns `(err == nil, shards afterwards)`. -/
structure Encoder where
  split : List Nat → Option Shards
  encode : Shards → Option Shards
  reconstruct : Shards → Bool × Shards
  encode_length : ∀ s s2, encode s = some s2 → s2.length = s.length
  reconstruct_length : ∀ s, (reconstruct s).2.length = s.length

/-- Everything `main` reads from outside the program. -/
structure Env where
  /-- The call `reedsolomon.New`; `none` when it returns an error. -/
  newEncoder : Int → Int → Option Encoder
  /-- Size of the input file as `os.Open` followed by `Stat().Size()` reports it; `none`
  when one of the two calls returns an error. -/
  statSize : Option Int
  /-- Bytes that `ioutil.ReadFile` returns for the input file; `none` when it returns an
  error. -/
  file : Option (List Nat)
  /-- Whether `ioutil.WriteFile` of shard number `i` succeeds. -/
  writeFile : Nat → Option Shard → Bool
  /-- Whether `ioutil.ReadDir(outputDir)` succeeds. -/
  readDir : Bool

/-- One call of `enc.Reconstruct` made by the probe loop: the value of `i`, the shard set
handed to the call, and whether the call returned no error. -/
structure Attempt where
  step : Int
  shards : Shards
  ok : Bool

/-- State of the probe loop. `calls` is a ghost field: the log of `Reconstruct` calls made
so far, oldest first. -/
structure ProbeState where
  shards : Shards
  tablerow : Row
  calls : List Attempt

/-- Outcome of a run of the sweep. `visited` is a ghost field: the configurations
`(dataShards, parityShards)` with which an iteration of the sweep loop was started (those
for which `reedsolomon.New` was called), oldest first. -/
structure SweepRun where
  visited : List (Int × Int)
  outcome : Except Abort (List Row)

/-! ## The program -/

/-- Function `validateInput` (lines 141-156). -/
def validateInput (totalShards : Int) : Except Abort Unit :=
  if totalShards > 257 then .error (.exit 1)
  else if totalShards < 4 then .error (.exit 1)
  else if totalShards.tmod 2 ≠ 0 then .error (.exit 1)
  else .ok ()

/-- Function `checkErr` (lines 134-139): exit status 2 on an error. -/
def checkErr {α : Type} (r : Option α) : Except Abort α :=
  match r with
  | none => .error (.exit 2)
  | some a => .ok a

/-- Function `getInputFileSize` (lines 118-124): the size that `Stat` reports for the opened
input file, whatever `ioutil.ReadFile` returns later; exit status 2 when `os.Open` or `Stat`
fails. -/
def getInputFileSize (env : Env) : Except Abort Int :=
  checkErr env.statSize

/-- The division `float64(x) / float64(y)` of line 90. -/
def floatDiv (x y : Int) : Ratio :=
  if y = 0 then
    if x = 0 then .nan else if 0 < x then .posInf else .negInf
  else .finite ((x : ℚ) / (y : ℚ))

/-- Function `cleanUpShards` (lines 126-132); failures of `os.Remove` are ignored by the
source. -/
def cleanUpShards (env : Env) : Except Abort Unit :=
  checkErr (if env.readDir then some () else none)

/-- The loop of lines 80-84 writing shard `i`, `i+1`, ... -/
def writeShards (env : Env) : Nat → Shards → Except Abort Unit
  | _, [] => .ok ()
  | i, shard :: rest =>
    match checkErr (if env.writeFile i shard then some () else none) with
    | .error e => .error e
    | .ok _ => writeShards env (i + 1) rest

/-- The assignment `shards[idx] = nil`; `none` is the index-out-of-range panic. -/
def setNil (shards : Shards) (idx : Int) : Option Shards :=
  if 0 ≤ idx ∧ idx < (shards.length : Int) then some (shards.set idx.toNat none) else none

/-- The inner loop of lines 96-98, entered with the current value of `j`. -/
def nilLoop (totalShards i j : Int) (shards : Shards) : Option Shards :=
  if j ≤ i + 1 then
    match setNil shards (totalShards - j) with
    | none => none
    | some s => nilLoop totalShards i (j + 1) s
  else some shards
termination_by (i + 2 - j).toNat
decreasing_by omega

/-- The probe loop of lines 94-106, entered with the current value of `i`; `none` is the
index-out-of-range panic. -/
def probeLoop (enc : Encoder) (totalShards : Int) (showReadQuorum : Bool) (i : Int)
    (st : ProbeState) : Option ProbeState :=
  if i ≥ 2 then
    match nilLoop totalShards i 1 st.shards with
    | none => none
    | some s =>
      let r := enc.reconstruct s
      let calls := st.calls ++ [Attempt.mk i s r.1]
      if (!r.1) && showReadQuorum then
        some ⟨r.2, st.tablerow ++ [Cell.int (totalShards - i)], calls⟩
      else probeLoop enc totalShards showReadQuorum (i - 1) ⟨r.2, st.tablerow, calls⟩
  else some st
termination_by i.toNat
decreasing_by omega

/-- Lines 63-106: the body of the sweep loop up to the end of the probe loop, for the
configuration `(dataShards, parityShards)`; the result is the finished `tablerow`. -/
def iteration (env : Env) (totalShards : Int) (showReadQuorum : Bool) (inputFileSize : Int)
    (dataShards parityShards : Int) : Except Abort Row :=
  match checkErr (env.newEncoder dataShards parityShards) with
  | .error e => .error e
  | .ok enc =>
  match checkErr env.file with
  | .error e => .error e
  | .ok b =>
  match checkErr (enc.split b) with
  | .error e => .error e
  | .ok shards0 =>
  match checkErr (enc.encode shards0) with
  | .error e => .error e
  | .ok shards =>
  match writeShards env 0 shards with
  | .error e => .error e
  | .ok _ =>
  match shards with
  | [] => .error .indexOutOfRange
  | shard0 :: _ =>
    let ratio : Ratio :=
      floatDiv ((shards.length : Int) * ((shard0.getD []).length : Int)) inputFileSize
    let tablerow : Row := [Cell.int dataShards, Cell.int parityShards, Cell.ratio ratio]
    match probeLoop enc totalShards showReadQuorum parityShards ⟨shards, tablerow, []⟩ with
    | none => .error .indexOutOfRange
    | some st => .ok st.tablerow

/-- The sweep loop of lines 61-114, entered with the current `dataShards`, `parityShards`,
the rows appended so far and the ghost log of the iterations started so far. -/
def sweepLoop (env : Env) (totalShards : Int) (showReadQuorum : Bool) (inputFileSize : Int)
    (dataShards parityShards : Int) (table : List Row) (visited : List (Int × Int)) :
    SweepRun :=
  if parityShards ≥ 2 then
    let visited := visited ++ [(dataShards, parityShards)]
    match iteration env totalShards showReadQuorum inputFileSize dataShards parityShards with
    | .error e => ⟨visited, .error e⟩
    | .ok tablerow =>
      match cleanUpShards env with
      | .error e => ⟨visited, .error e⟩
      | .ok _ =>
        sweepLoop env totalShards showReadQuorum inputFileSize
          (dataShards + 1) (parityShards - 1) (table ++ [tablerow]) visited
  else ⟨visited, .ok table⟩
termination_by parityShards.toNat
decreasing_by omega

/-- Function `main` (lines 22-116) for `nargs` positional arguments and the flag values
`-t totalShards`, `-r showReadQuorum`; the outcome is the list of rows handed to
`table.Render`. -/
def main (env : Env) (nargs : Nat) (totalShards : Int) (showReadQuorum : Bool) : SweepRun :=
  if nargs ≠ 0 then ⟨[], .error (.exit 1)⟩
  else
    match validateInput totalShards with
    | .error e => ⟨[], .error e⟩
    | .ok _ =>
      let dataShards := totalShards.tdiv 2
      let parityShards := totalShards.tdiv 2
      match getInputFileSize env with
      | .error e => ⟨[], .error e⟩
      | .ok inputFileSize =>
        sweepLoop env totalShards showReadQuorum inputFileSize dataShards parityShards [] []

/-! ## Vocabulary of the specification -/

/-- The total shard count passes `validateInput`. -/
def Accepted (t : Int) : Prop := validateInput t = .ok ()

/-- Number of present (non-`nil`) positions of a shard set. -/
def present (s : Shards) : Nat := s.countP Option.isSome

/-- Every position of the shard set is present. -/
def allPresent (s : Shards) : Bool := s.all Option.isSome

/-- Exactly the last `n` positions of the shard set are absent. -/
def absentExactlyLast (n : Nat) (s : Shards) : Bool :=
  decide (n ≤ s.length) && (s.take (s.length - n)).all Option.isSome
    && (s.drop (s.length - n)).all Option.isNone

/-- The shard set `s` with its last `n` entries replaced by `nil`. -/
def nilTail (n : Nat) (s : Shards) : Shards :=
  s.take (s.length - n) ++ List.replicate n none

/-- The reconstruct oracle restores every absent shard whenever it reports success. -/
def Restoring (enc : Encoder) : Prop :=
  ∀ s, (enc.reconstruct s).1 = true → allPresent (enc.reconstruct s).2 = true

/-- The codec contract of the read-quorum claim: reconstruction succeeds exactly when at
least `d` shards are present. -/
def Threshold (enc : Encoder) (d : Int) : Prop :=
  ∀ s, (enc.reconstruct s).1 = true ↔ d ≤ (present s : Int)

/-- The ratio cell of a row (its third cell), when there is one and it is finite. -/
def ratioOf (row : Row) : Option ℚ :=
  match row.get? 2 with
  | some (Cell.ratio (Ratio.finite q)) => some q
  | _ => none

/-- No codec or I/O call of a sweep over `t` total shards fails, the input file has size
`size` and contents `b`, and `Split` returns `dataShards + parityShards` shards as the
library documents. -/
structure NoFailure (env : Env) (t : Int) (b : List Nat) (size : Int) : Prop where
  stat_ok : env.statSize = some size
  file_ok : env.file = some b
  write_ok : ∀ i s, env.writeFile i s = true
  readDir_ok : env.readDir = true
  codec_ok : ∀ d p : Int, 1 ≤ d → 1 ≤ p → d + p = t →
    ∃ enc s0 s, env.newEncoder d p = some enc ∧ enc.split b = some s0 ∧
      (s0.length : Int) = d + p ∧ enc.encode s0 = some s

/-- The shard-length contract of `Split` used by the storage-ratio claims: after splitting
`b` for `d` data shards and encoding, shard `0` holds `⌈|b| / d⌉` bytes. -/
def CeilSplit (env : Env) (t : Int) (b : List Nat) : Prop :=
  ∀ (d p : Int) (enc : Encoder) (s0 s : Shards) (x : Option Shard), 1 ≤ d → 1 ≤ p → d + p = t →
    env.newEncoder d p = some enc → enc.split b = some s0 → enc.encode s0 = some s →
    s.head? = some x → ((x.getD []).length : Int) = ⌈(b.length : ℚ) / (d : ℚ)⌉

/-- The contract of the read-quorum claim for a whole sweep: the encoded shard set has no
absent shard and every encoder reconstructs exactly from `dataShards` or more shards. -/
def QuorumContract (env : Env) (t : Int) (b : List Nat) : Prop :=
  ∀ (d p : Int) (enc : Encoder) (s0 s : Shards), 1 ≤ d → 1 ≤ p → d + p = t →
    env.newEncoder d p = some enc → enc.split b = some s0 → enc.encode s0 = some s →
    allPresent s = true ∧ Threshold enc d

/-- The row as it is built on line 91, before the probe loop runs, when the encoded shard
set has `t` shards and `x` is its shard `0`. -/
def baseRow (t n d p : Int) (x : Option Shard) : Row :=
  [Cell.int d, Cell.int p, Cell.ratio (floatDiv (t * ((x.getD []).length : Int)) n)]

/-! ## A model codec

A small encoder that honours the contracts above (shard count, shard length, success of
reconstruction exactly from `dataShards` present shards). It stands in for the library in
the concrete scenarios; it does not implement the Reed-Solomon arithmetic. -/

/-- The list `xs` padded with zero bytes up to length `n`. -/
def padTo (n : Nat) (xs : List Nat) : List Nat := xs ++ List.replicate (n - xs.length) 0

/-- Model of `Split`: `d` data shards of `⌈|b| / d⌉` bytes cut from `b` (the last one
zero-padded) followed by `p` zero shards; an empty payload is an error. -/
def modelSplit (d p : Nat) (b : List Nat) : Option Shards :=
  if b = [] ∨ d = 0 then none
  else
    let per := (b.length + d - 1) / d
    some ((List.range d).map (fun k => some (padTo per ((b.drop (k * per)).take per)))
      ++ List.replicate p (some (List.replicate per 0)))

/-- Model of `Reconstruct`: succeeds, filling every absent position, exactly when at least
`d` shards are present. -/
def modelReconstruct (d : Nat) (s : Shards) : Bool × Shards :=
  if d ≤ present s then (true, s.map (fun x => some (x.getD []))) else (false, s)

/-- The model encoder for `(d, p)`. -/
def modelEncoder (d p : Int) : Encoder where
  split := modelSplit d.toNat p.toNat
  encode := some
  reconstruct := modelReconstruct d.toNat
  encode_length := by
    intro s s2 h
    simp only [Option.some.injEq] at h
    rw [h]
  reconstruct_length := by
    intro s
    unfold modelReconstruct
    split <;> simp

/-- The model environment: the input file has size `size` and holds `b`, every file
operation succeeds. For a regular file `size` is the length of `b`. -/
def modelEnv (b : List Nat) (size : Int) : Env where
  newEncoder := fun d p => if 1 ≤ d ∧ 1 ≤ p ∧ d + p ≤ 256 then some (modelEncoder d p) else none
  statSize := some size
  file := some b
  writeFile := fun _ _ => true
  readDir := true

/-- A payload of seven bytes. -/
def payload7 : List Nat := [1, 2, 3, 4, 5, 6, 7]

/-- A payload of 600 bytes. -/
def payload600 : List Nat := List.replicate 600 7

/-- A fully present shard set of six one-byte shards (three data, three parity). -/
def six : Shards := [some [1], some [2], some [3], some [0], some [0], some [0]]

/-- A fully present shard set of four one-byte shards (two data, two parity). -/
def four : Shards := [some [1], some [2], some [0], some [0]]

/-! ## Auxiliary lemmas -/

/-- The list `i, i-1, ..., i-n` is `i` followed by the list `i-1, ..., i-n`. -/
theorem range_map_shift (i : Int) (n : Nat) :
    (List.range (n + 1)).map (fun (k : Nat) => i - (k : Int))
      = i :: (List.range n).map (fun (k : Nat) => i - 1 - (k : Int)) := by
  rw [List.range_succ_eq_map, List.map_cons, List.map_map]
  simp only [Nat.cast_zero, sub_zero, List.cons.injEq, true_and]
  apply List.map_congr_left
  intro k _
  simp only [Function.comp, Nat.cast_succ]
  omega

/-- The nil-out loop entered at `j` with `c` iterations left: it returns, having replaced
the positions `t - i - 1, ..., t - j` by `nil`. -/
theorem nilLoop_aux (t i : Int) :
    ∀ (c : Nat) (j : Int) (s : Shards), j + c = i + 2 → 1 ≤ j → i + 1 ≤ t →
      (s.length : Int) = t →
      nilLoop t i j s
        = some (s.take (t - i - 1).toNat ++ List.replicate c none ++ s.drop (t - j + 1).toNat) := by
  intro c
  induction c with
  | zero =>
    intro j s hj h1 hi hs
    have hji : ¬ j ≤ i + 1 := by omega
    have e : (t - j + 1).toNat = (t - i - 1).toNat := by congr 1; omega
    rw [nilLoop, if_neg hji, e]
    simp
  | succ c ih =>
    intro j s hj h1 hi hs
    have hji : j ≤ i + 1 := by omega
    obtain ⟨k, hk⟩ : ∃ k : Nat, t - j = (k : Int) := ⟨(t - j).toNat, by omega⟩
    have hkl : k < s.length := by omega
    have hset : setNil s (t - j) = some (s.set k none) := by
      simp [setNil, hk, hkl]
    rw [nilLoop, if_pos hji, hset]
    simp only
    rw [ih (j + 1) (s.set k none) (by omega) (by omega) hi (by simpa using hs)]
    have e1 : (t - (j + 1) + 1).toNat = k := by omega
    have e2 : (t - j + 1).toNat = k + 1 := by omega
    obtain ⟨a, ha⟩ : ∃ a : Nat, (t - i - 1).toNat = a := ⟨_, rfl⟩
    have hak : a ≤ k := by omega
    rw [e1, e2, ha]
    congr 1
    have h3 : (s.set k none).take a = s.take a := by
      rw [List.set_take, List.set_eq_of_length_le]
      simp; omega
    have h4 : (s.set k none).drop k = none :: s.drop (k + 1) := by
      rw [List.set_eq_take_append_cons_drop, if_pos hkl]
      rw [List.drop_left']
      simp; omega
    rw [h3, h4, List.replicate_succ']
    simp

/-- The nil-out loop of step `i` returns the shard set with its last `i + 1` entries `nil`. -/
theorem nilLoop_full (t i : Int) (s : Shards) (h0 : 0 ≤ i) (hi : i + 1 ≤ t)
    (hs : (s.length : Int) = t) :
    nilLoop t i 1 s = some (nilTail (i + 1).toNat s) := by
  rw [nilLoop_aux t i (i + 1).toNat 1 s (by omega) (by omega) hi hs]
  have e : (t - 1 + 1).toNat = s.length := by omega
  have e2 : (t - i - 1).toNat = s.length - (i + 1).toNat := by omega
  rw [e, e2]
  simp [nilTail]

/-- Replacing the last `n` entries keeps the length. -/
theorem nilTail_length (n : Nat) (s : Shards) (h : n ≤ s.length) :
    (nilTail n s).length = s.length := by
  simp [nilTail]; omega

/-- In a fully present shard set whose last `n` entries were replaced, exactly the last `n`
positions are absent. -/
theorem nilTail_absent (n : Nat) (s : Shards) (h : n ≤ s.length) (hs : allPresent s = true) :
    absentExactlyLast n (nilTail n s) = true := by
  have hl := nilTail_length n s h
  have ht : (s.take (s.length - n)).length = s.length - n := by simp
  simp only [absentExactlyLast, hl, Bool.and_eq_true, decide_eq_true_eq]
  refine ⟨⟨h, ?_⟩, ?_⟩
  · rw [nilTail, List.take_left' ht]
    simp only [allPresent, List.all_eq_true] at hs ⊢
    intro x hx
    exact hs x (List.mem_of_mem_take hx)
  · rw [nilTail, List.drop_left' ht]
    simp

/-- Specification of the probe loop entered at step `i` on a shard set of `t` shards: it
returns (no panic), keeps the number of shards, extends the log by the attempts `new` made
at the steps `i, i-1, ...`; each attempt is made on a shard set whose last `step + 1` entries
are `nil`; with reporting enabled every attempt but the last succeeded; and either the last
attempt failed and one cell `t - step` was appended, or the row is unchanged and the loop
ran through all of `i, ..., 2`. -/
theorem probeLoop_spec (enc : Encoder) (t : Int) (flag : Bool) (i : Int) (st : ProbeState)
    (hlen : (st.shards.length : Int) = t) (hi : i + 1 ≤ t) :
    ∃ st2 new, probeLoop enc t flag i st = some st2 ∧ st2.shards.length = st.shards.length ∧
      st2.calls = st.calls ++ new ∧
      new.map Attempt.step = (List.range new.length).map (fun (k : Nat) => i - (k : Int)) ∧
      (∀ a ∈ new, 2 ≤ a.step ∧ a.ok = (enc.reconstruct a.shards).1 ∧
        ∃ s0 : Shards, s0.length = st.shards.length ∧ a.shards = nilTail (a.step + 1).toNat s0 ∧
          (Restoring enc → allPresent st.shards = true → flag = true → allPresent s0 = true)) ∧
      (flag = true → ∀ a ∈ new.dropLast, a.ok = true) ∧
      ((flag = true ∧ ∃ a, new.getLast? = some a ∧ a.ok = false ∧
          st2.tablerow = st.tablerow ++ [Cell.int (t - a.step)]) ∨
        (st2.tablerow = st.tablerow ∧ new.length = (i - 1).toNat ∧
          (flag = true → ∀ a ∈ new, a.ok = true))) := by
  induction i, st using probeLoop.induct enc t flag with
  | case1 i st h2 hn =>
    rw [nilLoop_full t i st.shards (by omega) hi hlen] at hn
    exact absurd hn (by simp)
  | case2 i st h2 s hs r hr =>
    rw [nilLoop_full t i st.shards (by omega) hi hlen] at hs
    have hs2 : nilTail (i + 1).toNat st.shards = s := by simpa using hs
    have hr1 : r.1 = false ∧ flag = true := by simpa using hr
    refine ⟨⟨r.2, st.tablerow ++ [Cell.int (t - i)], st.calls ++ [Attempt.mk i s r.1]⟩,
      [Attempt.mk i s r.1], ?_, ?_, rfl, by simp [List.range_succ], ?_, by simp, ?_⟩
    · rw [probeLoop, if_pos h2, nilLoop_full t i st.shards (by omega) hi hlen, hs2]
      simp only
      rw [if_pos hr]
    · show (enc.reconstruct s).2.length = _
      rw [enc.reconstruct_length, ← hs2, nilTail_length]; omega
    · intro a ha
      simp only [List.mem_singleton] at ha
      subst ha
      exact ⟨h2, rfl, st.shards, rfl, hs2.symm, fun _ h _ => h⟩
    · left
      exact ⟨hr1.2, _, rfl, hr1.1, rfl⟩
  | case3 i st h2 s hs r calls hr ih =>
    rw [nilLoop_full t i st.shards (by omega) hi hlen] at hs
    have hs2 : nilTail (i + 1).toNat st.shards = s := by simpa using hs
    have hrl : r.2.length = st.shards.length := by
      show (enc.reconstruct s).2.length = _
      rw [enc.reconstruct_length, ← hs2, nilTail_length]; omega
    have hr1 : flag = true → r.1 = true := by
      intro hf; simpa [hf] using hr
    obtain ⟨st2, new, h1, h2', h3, h4, h5, h6, h7⟩ := ih (by simp only; omega) (by omega)
    refine ⟨st2, Attempt.mk i s r.1 :: new, ?_, ?_, ?_, ?_, ?_, ?_, ?_⟩
    · rw [probeLoop, if_pos h2, nilLoop_full t i st.shards (by omega) hi hlen, hs2]
      simp only
      rw [if_neg hr]
      exact h1
    · rw [h2']; exact hrl
    · rw [h3]; simp [calls]
    · rw [List.length_cons, range_map_shift, List.map_cons, h4]
    · intro a ha
      rcases List.mem_cons.1 ha with ha | ha
      · subst ha
        exact ⟨h2, rfl, st.shards, rfl, hs2.symm, fun _ h _ => h⟩
      · obtain ⟨q1, q2, s0, q3, q4, q5⟩ := h5 a ha
        refine ⟨q1, q2, s0, by rw [q3]; exact hrl, q4, ?_⟩
        intro hR _ hf
        exact q5 hR (hR s (hr1 hf)) hf
    · intro hf a ha
      by_cases hnew : new = []
      · subst hnew; simp at ha
      · rw [List.dropLast_cons_of_ne_nil hnew] at ha
        rcases List.mem_cons.1 ha with ha | ha
        · subst ha; exact hr1 hf
        · exact h6 hf a ha
    · rcases h7 with ⟨hf, a, ha, hok, hrow⟩ | ⟨hrow, hlen2, hall⟩
      · left
        refine ⟨hf, a, ?_, hok, hrow⟩
        cases new with
        | nil => simp at ha
        | cons b rest => simpa [List.getLast?_cons_cons] using ha
      · right
        refine ⟨hrow, by simp only [List.length_cons, hlen2]; omega, ?_⟩
        intro hf a ha
        rcases List.mem_cons.1 ha with ha | ha
        · subst ha; exact hr1 hf
        · exact hall hf a ha
  | case4 i st h2 =>
    refine ⟨st, [], ?_, rfl, by simp, by simp, by simp, by simp, ?_⟩
    · rw [probeLoop, if_neg h2]
    · right
      refine ⟨rfl, ?_, by simp⟩
      simp only [List.length_nil]; omega

/-- The accepted totals are the even integers between 4 and 256. -/
theorem accepted_iff (t : Int) : Accepted t ↔ 4 ≤ t ∧ t ≤ 256 ∧ t % 2 = 0 := by
  unfold Accepted validateInput
  by_cases h1 : t > 257
  · simp [h1]; omega
  · by_cases h2 : t < 4
    · simp [h1, h2]
    · have e : t.tmod 2 = t % 2 := Int.tmod_eq_emod (by omega) (by omega)
      simp only [h1, h2, if_false, e]
      by_cases h3 : t % 2 = 0
      · simp [h3]; omega
      · simp [h3]

/-- For an accepted total the truncated half is the exact half, at least 2. -/
theorem accepted_tdiv (t : Int) (h : Accepted t) :
    t.tdiv 2 = t / 2 ∧ 2 ≤ t / 2 ∧ t / 2 + t / 2 = t := by
  obtain ⟨h1, h2, h3⟩ := (accepted_iff t).1 h
  refine ⟨Int.tdiv_eq_ediv (by omega) (by omega), by omega, by omega⟩

/-- The shard files are written without error when every write succeeds. -/
theorem writeShards_ok (env : Env) (h : ∀ i s, env.writeFile i s = true) :
    ∀ (s : Shards) (i : Nat), writeShards env i s = .ok () := by
  intro s
  induction s with
  | nil => intro i; rfl
  | cons x rest ih =>
    intro i
    simp only [writeShards, h, if_true, checkErr]
    exact ih (i + 1)

/-- One iteration of the sweep in which no call fails: it returns the row left by the
probe loop started on the encoded shard set with the row of line 91. -/
theorem iteration_ok (env : Env) (t : Int) (flag : Bool) (n d p : Int) (b : List Nat)
    (enc : Encoder) (s0 s : Shards) (hd : 1 ≤ d) (hp : 0 ≤ p) (ht : d + p = t)
    (hnew : env.newEncoder d p = some enc) (hfile : env.file = some b)
    (hsplit : enc.split b = some s0) (hlen : (s0.length : Int) = d + p)
    (henc : enc.encode s0 = some s) (hw : ∀ i s, env.writeFile i s = true) :
    ∃ x rest st2, s = x :: rest ∧ (s.length : Int) = t ∧
      probeLoop enc t flag p ⟨s, baseRow t n d p x, []⟩ = some st2 ∧
      iteration env t flag n d p = .ok st2.tablerow := by
  have hsl : (s.length : Int) = t := by
    rw [enc.encode_length s0 s henc, hlen, ht]
  cases s with
  | nil => simp at hsl; omega
  | cons x rest =>
    obtain ⟨st2, new, h1, -⟩ :=
      probeLoop_spec enc t flag p ⟨x :: rest, baseRow t n d p x, []⟩ hsl (by omega)
    refine ⟨x, rest, st2, rfl, hsl, h1, ?_⟩
    simp only [iteration, hnew, hfile, hsplit, henc, checkErr, writeShards_ok env hw]
    simp only [baseRow] at h1
    rw [hsl, h1]

/-- The list of the configurations `(d + k, p - k)`, `k < m + 1`, is `(d, p)` followed by
the list of the `(d + 1 + k, p - 1 - k)`, `k < m`. -/
theorem range_map_configs (d p : Int) (m : Nat) :
    (List.range (m + 1)).map (fun (k : Nat) => (d + (k : Int), p - (k : Int)))
      = (d, p) :: (List.range m).map (fun (k : Nat) => (d + 1 + (k : Int), p - 1 - (k : Int))) := by
  rw [List.range_succ_eq_map, List.map_cons, List.map_map]
  simp only [Nat.cast_zero, add_zero, sub_zero, List.cons.injEq, true_and]
  apply List.map_congr_left
  intro k _
  simp only [Function.comp, Nat.cast_succ, Prod.mk.injEq]
  constructor <;> ring

/-- The sweep loop entered at `(d, p)` with `m = p - 1` iterations to go, all of which
succeed: it starts the iterations for `(d + k, p - k)`, `k < m`, in this order, and returns
the table extended by their `m` rows. -/
theorem sweepLoop_ok (env : Env) (t : Int) (flag : Bool) (n : Int)
    (hclean : env.readDir = true) :
    ∀ (m : Nat) (d p : Int) (table : List Row) (vis : List (Int × Int)), (p - 1).toNat = m →
      (∀ k : Nat, k < m → ∃ row, iteration env t flag n (d + k) (p - k) = .ok row) →
      ∃ rows : List Row,
        sweepLoop env t flag n d p table vis
          = ⟨vis ++ (List.range m).map (fun (k : Nat) => (d + (k : Int), p - (k : Int))),
              .ok (table ++ rows)⟩ ∧
        rows.length = m ∧
        ∀ (k : Nat) (hk : k < rows.length),
          iteration env t flag n (d + k) (p - k) = .ok (rows.get ⟨k, hk⟩) := by
  intro m
  induction m with
  | zero =>
    intro d p table vis hm _
    refine ⟨[], ?_, rfl, ?_⟩
    · rw [sweepLoop, if_neg (by omega)]; simp
    · intro k hk; simp at hk
  | succ m ih =>
    intro d p table vis hm hit
    have hp : p ≥ 2 := by omega
    obtain ⟨row, hrow⟩ := hit 0 (by omega)
    simp only [Nat.cast_zero, add_zero, sub_zero] at hrow
    obtain ⟨rows, h1, h2, h3⟩ := ih (d + 1) (p - 1) (table ++ [row]) (vis ++ [(d, p)])
      (by omega) (by
      intro k hk
      obtain ⟨r, hr⟩ := hit (k + 1) (by omega)
      refine ⟨r, ?_⟩
      rw [← hr]
      congr 1 <;> push_cast <;> ring)
    refine ⟨row :: rows, ?_, by simp [h2], ?_⟩
    · rw [sweepLoop, if_pos hp]
      simp only [hrow, cleanUpShards, hclean, if_true, checkErr]
      rw [h1, range_map_configs]
      simp
    · intro k hk
      cases k with
      | zero => simpa using hrow
      | succ k =>
        have hk2 : k < rows.length := by simpa using hk
        have := h3 k hk2
        simp only [List.get_eq_getElem, List.getElem_cons_succ] at this ⊢
        rw [← this]
        congr 1 <;> push_cast <;> ring

/-- The iterations started by the sweep loop entered at `(d, p)`, whatever fails: they are
the configurations `(d + k, p - k)` for `k < m`, in this order, for some `m ≤ p - 1`; at
least one iteration is started when `p ≥ 2`, and all `p - 1` when the loop returns a
table. -/
theorem sweepLoop_visited (env : Env) (t : Int) (flag : Bool) (n : Int) :
    ∀ (c : Nat) (d p : Int) (table : List Row) (vis : List (Int × Int)), (p - 1).toNat = c →
      ∃ m : Nat, m ≤ c ∧ (2 ≤ p → 1 ≤ m) ∧
        (sweepLoop env t flag n d p table vis).visited
          = vis ++ (List.range m).map (fun (k : Nat) => (d + (k : Int), p - (k : Int))) ∧
        ∀ table2, (sweepLoop env t flag n d p table vis).outcome = .ok table2 → m = c := by
  intro c
  induction c with
  | zero =>
    intro d p table vis hc
    refine ⟨0, le_refl _, by omega, ?_, fun _ _ => rfl⟩
    rw [sweepLoop, if_neg (by omega)]; simp
  | succ c ih =>
    intro d p table vis hc
    have hp : p ≥ 2 := by omega
    have hone : vis ++ [(d, p)]
        = vis ++ (List.range 1).map (fun (k : Nat) => (d + (k : Int), p - (k : Int))) := by
      simp [List.range_succ]
    rw [sweepLoop, if_pos hp]
    cases hit : iteration env t flag n d p with
    | error e =>
      refine ⟨1, by omega, fun _ => le_refl _, hone, ?_⟩
      intro table2 h
      simp at h
    | ok row =>
      cases hcl : cleanUpShards env with
      | error e =>
        refine ⟨1, by omega, fun _ => le_refl _, hone, ?_⟩
        intro table2 h
        simp at h
      | ok u =>
        obtain ⟨m, h1, -, h3, h4⟩ := ih (d + 1) (p - 1) (table ++ [row]) (vis ++ [(d, p)])
          (by omega)
        refine ⟨m + 1, by omega, fun _ => by omega, ?_, ?_⟩
        · simp only
          rw [h3, range_map_configs]
          simp
        · intro table2 h
          simp only at h
          rw [h4 table2 h]

/-- With no failing call, `main` on an accepted `t` starts the iterations for
`(t/2 + k, t/2 - k)`, `k < t/2 - 1`, and returns their `t/2 - 1` rows. -/
theorem main_ok (env : Env) (t : Int) (flag : Bool) (b : List Nat) (size : Int)
    (hacc : Accepted t) (hnf : NoFailure env t b size) :
    ∃ table : List Row, (main env 0 t flag).outcome = .ok table ∧
      (table.length : Int) = t / 2 - 1 ∧
      (main env 0 t flag).visited
        = (List.range table.length).map (fun (k : Nat) => (t / 2 + (k : Int), t / 2 - (k : Int))) ∧
      ∀ (k : Nat) (hk : k < table.length),
        iteration env t flag size (t / 2 + k) (t / 2 - k) = .ok (table.get ⟨k, hk⟩) := by
  obtain ⟨e1, e2, e3⟩ := accepted_tdiv t hacc
  have hit : ∀ k : Nat, k < (t / 2 - 1).toNat →
      ∃ row, iteration env t flag size (t / 2 + k) (t / 2 - k) = .ok row := by
    intro k hk
    obtain ⟨enc, s0, s, q1, q2, q3, q4⟩ :=
      hnf.codec_ok (t / 2 + k) (t / 2 - k) (by omega) (by omega) (by omega)
    obtain ⟨x, rest, st2, -, -, -, h⟩ :=
      iteration_ok env t flag size (t / 2 + k) (t / 2 - k) b enc s0 s (by omega) (by omega)
        (by omega) q1 hnf.file_ok q2 q3 q4 hnf.write_ok
    exact ⟨_, h⟩
  obtain ⟨rows, h1, h2, h3⟩ :=
    sweepLoop_ok env t flag size hnf.readDir_ok (t / 2 - 1).toNat (t / 2) (t / 2) [] [] rfl hit
  have hacc2 : validateInput t = .ok () := hacc
  have hmain : main env 0 t flag = sweepLoop env t flag size (t / 2) (t / 2) [] [] := by
    simp only [main, hacc2, getInputFileSize, hnf.stat_ok, checkErr, e1]
    simp
  rw [hmain, h1]
  refine ⟨rows, by simp, by omega, by simp [h2], h3⟩

/-- The iterations started by `main`, whatever fails: they are the configurations
`(t/2 + k, t/2 - k)` for `k < m`, in this order, for some `m ≤ t/2 - 1`; at least one
iteration is started when the arguments are accepted and the size of the input file is
obtained, and all `t/2 - 1` when `main` returns a table. -/
theorem main_visited (env : Env) (nargs : Nat) (t : Int) (flag : Bool) (hacc : Accepted t) :
    ∃ m : Nat, (m : Int) ≤ t / 2 - 1 ∧
      (main env nargs t flag).visited
        = (List.range m).map (fun (k : Nat) => (t / 2 + (k : Int), t / 2 - (k : Int))) ∧
      (nargs = 0 → (∃ size, env.statSize = some size) → 1 ≤ m) ∧
      ∀ table, (main env nargs t flag).outcome = .ok table → (m : Int) = t / 2 - 1 := by
  obtain ⟨e1, e2, e3⟩ := accepted_tdiv t hacc
  have hacc2 : validateInput t = .ok () := hacc
  by_cases hn : nargs = 0
  · cases hs : env.statSize with
    | none =>
      have hmain : main env nargs t flag = ⟨[], .error (.exit 2)⟩ := by
        simp [main, hn, hacc2, getInputFileSize, hs, checkErr]
      rw [hmain]
      refine ⟨0, by omega, by simp, ?_, ?_⟩
      · rintro - ⟨size, h⟩
        simp at h
      · intro table h
        simp at h
    | some size =>
      have hmain : main env nargs t flag = sweepLoop env t flag size (t / 2) (t / 2) [] [] := by
        simp [main, hn, hacc2, getInputFileSize, hs, checkErr, e1]
      obtain ⟨m, h1, h2, h3, h4⟩ :=
        sweepLoop_visited env t flag size (t / 2 - 1).toNat (t / 2) (t / 2) [] [] rfl
      rw [hmain]
      refine ⟨m, by omega, by simpa using h3, fun _ _ => h2 e2, ?_⟩
      intro table h
      have := h4 table h
      omega
  · have hmain : main env nargs t flag = ⟨[], .error (.exit 1)⟩ := by
      simp [main, hn]
    rw [hmain]
    refine ⟨0, by omega, by simp, fun h => absurd h hn, ?_⟩
    intro table h
    simp at h

/-- The probe loop appends at most one cell to the row, and only with reporting enabled. -/
theorem probeLoop_tablerow (enc : Encoder) (t : Int) (flag : Bool) (i : Int) (st : ProbeState)
    (hlen : (st.shards.length : Int) = t) (hi : i + 1 ≤ t) :
    ∃ st2, probeLoop enc t flag i st = some st2 ∧
      (st2.tablerow = st.tablerow ∨
        (flag = true ∧ ∃ j : Int, 2 ≤ j ∧ j ≤ i ∧ st2.tablerow = st.tablerow ++ [Cell.int (t - j)])) := by
  obtain ⟨st2, new, h1, -, -, h4, h5, -, h7⟩ := probeLoop_spec enc t flag i st hlen hi
  refine ⟨st2, h1, ?_⟩
  rcases h7 with ⟨hf, a, ha, -, hrow⟩ | ⟨hrow, -, -⟩
  · right
    have hmem : a ∈ new := List.mem_of_getLast?_eq_some ha
    have hstep : a.step ∈ new.map Attempt.step := List.mem_map_of_mem _ hmem
    rw [h4] at hstep
    obtain ⟨k, -, hk⟩ := List.mem_map.1 hstep
    exact ⟨hf, a.step, (h5 a hmem).1, by omega, hrow⟩
  · left; exact hrow

/-- Row `k` of the table of `main` is the row left by the probe loop of the configuration
`(t/2 + k, t/2 - k)` run on its encoded shard set. -/
theorem main_rows (env : Env) (t : Int) (flag : Bool) (b : List Nat) (size : Int)
    (hacc : Accepted t) (hnf : NoFailure env t b size) :
    ∃ table : List Row, (main env 0 t flag).outcome = .ok table ∧
      (table.length : Int) = t / 2 - 1 ∧
      ∀ (k : Nat) (hk : k < table.length), ∃ enc s0 x rest st2,
        env.newEncoder (t / 2 + k) (t / 2 - k) = some enc ∧ enc.split b = some s0 ∧
        enc.encode s0 = some (x :: rest) ∧ ((x :: rest).length : Int) = t ∧
        probeLoop enc t flag (t / 2 - k)
          ⟨x :: rest, baseRow t size (t / 2 + k) (t / 2 - k) x, []⟩ = some st2 ∧
        table.get ⟨k, hk⟩ = st2.tablerow := by
  obtain ⟨e1, e2, e3⟩ := accepted_tdiv t hacc
  obtain ⟨table, h1, h2, -, h3⟩ := main_ok env t flag b size hacc hnf
  refine ⟨table, h1, h2, ?_⟩
  intro k hk
  obtain ⟨enc, s0, s, q1, q2, q3, q4⟩ :=
    hnf.codec_ok (t / 2 + k) (t / 2 - k) (by omega) (by omega) (by omega)
  obtain ⟨x, rest, st2, r1, r2, r3, r4⟩ :=
    iteration_ok env t flag size (t / 2 + k) (t / 2 - k) b enc s0 s (by omega) (by omega)
      (by omega) q1 hnf.file_ok q2 q3 q4 hnf.write_ok
  subst r1
  refine ⟨enc, s0, x, rest, st2, q1, q2, q4, r2, r3, ?_⟩
  have := h3 k hk
  rw [r4] at this
  exact (Except.ok.inj this).symm

/-- After replacing the last `n` entries at most `length - n` shards are present. -/
theorem present_nilTail_le (n : Nat) (s : Shards) (h : n ≤ s.length) :
    present (nilTail n s) + n ≤ s.length := by
  have h1 : List.countP Option.isSome (s.take (s.length - n)) ≤ (s.take (s.length - n)).length :=
    List.countP_le_length _
  simp only [List.length_take] at h1
  simp only [present, nilTail, List.countP_append, List.countP_replicate]
  simp only [Option.isSome_none, Bool.false_eq_true, if_false]
  omega

/-- When exactly the last `n` positions are absent, `length - n` shards are present. -/
theorem present_of_absentExactlyLast (n : Nat) (s : Shards)
    (h : absentExactlyLast n s = true) : present s + n = s.length := by
  simp only [absentExactlyLast, Bool.and_eq_true, decide_eq_true_eq] at h
  obtain ⟨⟨h1, h2⟩, h3⟩ := h
  have c1 : List.countP Option.isSome (s.take (s.length - n)) = (s.take (s.length - n)).length :=
    List.countP_eq_length.2 (by simpa using h2)
  have c2 : List.countP Option.isSome (s.drop (s.length - n)) = 0 := by
    rw [List.countP_eq_zero]
    intro x hx
    have := (List.all_eq_true.1 h3) x hx
    cases x with
    | none => simp
    | some v => simp at this
  have hc : List.countP Option.isSome s
      = List.countP Option.isSome (s.take (s.length - n))
        + List.countP Option.isSome (s.drop (s.length - n)) := by
    rw [← List.countP_append, List.take_append_drop]
  unfold present
  rw [hc, c1, c2]
  simp only [List.length_take]
  omega

/-- Every step of a log that descends from `i` is at most `i`. -/
theorem step_le_of_mem (i : Int) (new : List Attempt) (a : Attempt) (ha : a ∈ new)
    (h : new.map Attempt.step = (List.range new.length).map (fun (k : Nat) => i - (k : Int))) :
    a.step ≤ i := by
  have hstep : a.step ∈ new.map Attempt.step := List.mem_map_of_mem _ ha
  rw [h] at hstep
  obtain ⟨k, -, hk⟩ := List.mem_map.1 hstep
  omega

/-- The shard length `(n + d - 1) / d` of the model codec is `⌈n / d⌉`. -/
theorem ceil_div_nat (n d : Nat) (hd : 0 < d) :
    (((n + d - 1) / d : Nat) : Int) = ⌈(n : ℚ) / (d : ℚ)⌉ := by
  symm
  rw [Int.ceil_eq_iff]
  have hdq : (0 : ℚ) < d := by exact_mod_cast hd
  have h1 : (n + d - 1) / d * d ≤ n + d - 1 := Nat.div_mul_le_self _ _
  have h2 : n + d - 1 < ((n + d - 1) / d + 1) * d := by
    rw [Nat.mul_comm]
    exact Nat.lt_mul_div_succ _ hd
  rw [Nat.succ_mul] at h2
  generalize (n + d - 1) / d = z at h1 h2 ⊢
  have h3 : z * d < n + d := by omega
  have h4 : n ≤ z * d := by omega
  have h3q : (z : ℚ) * d < n + d := by exact_mod_cast h3
  have h4q : (n : ℚ) ≤ z * d := by exact_mod_cast h4
  constructor
  · rw [lt_div_iff₀ hdq]
    push_cast
    linarith
  · rw [div_le_iff₀ hdq]
    push_cast
    linarith

/-- The model `Split` returns `d + p` present shards of `(n + d - 1) / d` bytes each. -/
theorem modelSplit_eq (d p : Nat) (b : List Nat) (hb : b ≠ []) (hd : 0 < d) :
    ∃ s : Shards, modelSplit d p b = some s ∧ s.length = d + p ∧ allPresent s = true ∧
      ∀ x ∈ s, (x.getD []).length = (b.length + d - 1) / d := by
  have hs : modelSplit d p b = some
      ((List.range d).map (fun k => some (padTo ((b.length + d - 1) / d)
          ((b.drop (k * ((b.length + d - 1) / d))).take ((b.length + d - 1) / d))))
        ++ List.replicate p (some (List.replicate ((b.length + d - 1) / d) 0))) := by
    simp only [modelSplit, hb, false_or, Nat.pos_iff_ne_zero.1 hd, if_false]
  refine ⟨_, hs, ?_, ?_, ?_⟩
  · simp
  · simp [allPresent]
  · intro x hx
    simp only [List.mem_append, List.mem_map, List.mem_range, List.mem_replicate] at hx
    rcases hx with ⟨k, -, rfl⟩ | ⟨-, rfl⟩
    · simp only [Option.getD_some, padTo, List.length_append, List.length_replicate,
        List.length_take, List.length_drop]
      omega
    · simp

/-- The model encoder reconstructs exactly from `d` or more present shards. -/
theorem modelEncoder_threshold (d p : Int) : Threshold (modelEncoder d p) d := by
  intro s
  show (modelReconstruct d.toNat s).1 = true ↔ _
  unfold modelReconstruct
  split <;> simp <;> omega

/-- The model encoder restores every absent shard on success. -/
theorem modelEncoder_restoring (d p : Int) : Restoring (modelEncoder d p) := by
  intro s
  show (modelReconstruct d.toNat s).1 = true → allPresent (modelReconstruct d.toNat s).2 = true
  unfold modelReconstruct
  split <;> simp [allPresent]

/-- The model environment satisfies the three contracts used by the claims, for every
non-empty payload and every total of at most 256 shards. -/
theorem modelEnv_spec (b : List Nat) (hb : b ≠ []) (t : Int) (ht : t ≤ 256) (size : Int) :
    NoFailure (modelEnv b size) t b size ∧ CeilSplit (modelEnv b size) t b ∧
      QuorumContract (modelEnv b size) t b := by
  have hnew : ∀ d p : Int, 1 ≤ d → 1 ≤ p → d + p = t →
      (modelEnv b size).newEncoder d p = some (modelEncoder d p) := by
    intro d p hd hp hdp
    simp only [modelEnv]
    rw [if_pos ⟨hd, hp, by omega⟩]
  refine ⟨⟨rfl, rfl, fun _ _ => rfl, rfl, ?_⟩, ?_, ?_⟩
  · intro d p hd hp hdp
    obtain ⟨s, h1, h2, -⟩ := modelSplit_eq d.toNat p.toNat b hb (by omega)
    exact ⟨modelEncoder d p, s, s, hnew d p hd hp hdp, h1, by omega, rfl⟩
  · intro d p enc s0 s x hd hp hdp he hs0 hs hx
    rw [hnew d p hd hp hdp] at he
    cases he
    obtain ⟨s1, h1, -, -, h4⟩ := modelSplit_eq d.toNat p.toNat b hb (by omega)
    have e0 : s0 = s1 := Option.some.inj (hs0.symm.trans h1)
    have e1 : s = s0 := (Option.some.inj hs).symm
    subst e0 e1
    have hmem : x ∈ s := List.mem_of_mem_head? hx
    rw [h4 x hmem, ceil_div_nat _ _ (by omega)]
    congr 2
    have : ((d.toNat : Int) : ℚ) = (d : ℚ) := by rw [Int.toNat_of_nonneg (by omega)]
    exact_mod_cast this
  · intro d p enc s0 s hd hp hdp he hs0 hs
    rw [hnew d p hd hp hdp] at he
    cases he
    obtain ⟨s1, h1, -, h3, -⟩ := modelSplit_eq d.toNat p.toNat b hb (by omega)
    have e0 : s0 = s1 := Option.some.inj (hs0.symm.trans h1)
    have e1 : s = s0 := (Option.some.inj hs).symm
    subst e0 e1
    exact ⟨h3, modelEncoder_threshold d p⟩

/-- One unfolding of the probe loop with reporting enabled when the attempt of step `i`
fails. -/
theorem probeLoop_first_fail (enc : Encoder) (t i : Int) (st : ProbeState) (h2 : i ≥ 2)
    (hlen : (st.shards.length : Int) = t) (hi : i + 1 ≤ t)
    (hf : (enc.reconstruct (nilTail (i + 1).toNat st.shards)).1 = false) :
    probeLoop enc t true i st
      = some ⟨(enc.reconstruct (nilTail (i + 1).toNat st.shards)).2,
          st.tablerow ++ [Cell.int (t - i)],
          st.calls ++ [Attempt.mk i (nilTail (i + 1).toNat st.shards) false]⟩ := by
  rw [probeLoop, if_pos h2, nilLoop_full t i st.shards (by omega) hi hlen]
  simp [hf]

/-- Under the shard-length contract, row `k` of the table of `main` is the row of line 91
for `(t/2 + k, t/2 - k)`, followed by the cells appended by the probe loop (none when
reporting is disabled), and shard `0` has `⌈n / (t/2 + k)⌉` bytes. -/
theorem main_ratio_rows (env : Env) (t : Int) (flag : Bool) (b : List Nat) (size : Int)
    (hacc : Accepted t) (hnf : NoFailure env t b size) (hceil : CeilSplit env t b) :
    ∃ table : List Row, (main env 0 t flag).outcome = .ok table ∧
      (table.length : Int) = t / 2 - 1 ∧
      ∀ (k : Nat) (hk : k < table.length), ∃ enc s0 s x q,
        env.newEncoder (t / 2 + k) (t / 2 - k) = some enc ∧ enc.split b = some s0 ∧
        enc.encode s0 = some s ∧ s.head? = some x ∧ (s.length : Int) = t ∧
        ((x.getD []).length : Int) = ⌈(b.length : ℚ) / ((t / 2 + k : Int) : ℚ)⌉ ∧
        table.get ⟨k, hk⟩ = baseRow t size (t / 2 + k) (t / 2 - k) x ++ q ∧
        (flag = false → q = []) := by
  obtain ⟨e1, e2, e3⟩ := accepted_tdiv t hacc
  obtain ⟨table, h1, h2, h3⟩ := main_rows env t flag b size hacc hnf
  refine ⟨table, h1, h2, ?_⟩
  intro k hk
  obtain ⟨enc, s0, x, rest, st2, q1, q2, q3, q4, q5, q6⟩ := h3 k hk
  obtain ⟨st3, r1, r2⟩ := probeLoop_tablerow enc t flag (t / 2 - k)
    ⟨x :: rest, baseRow t size (t / 2 + k) (t / 2 - k) x, []⟩ q4 (by omega)
  rw [q5] at r1
  have : st3 = st2 := (Option.some.inj r1).symm
  subst this
  have hc := hceil (t / 2 + k) (t / 2 - k) enc s0 (x :: rest) x (by omega) (by omega) (by omega)
    q1 q2 q3 rfl
  rcases r2 with r2 | ⟨hf, j, -, -, r2⟩
  · exact ⟨enc, s0, x :: rest, x, [], q1, q2, q3, rfl, q4, hc, by rw [q6, r2]; simp,
      fun _ => rfl⟩
  · refine ⟨enc, s0, x :: rest, x, [Cell.int (t - j)], q1, q2, q3, rfl, q4, hc, by rw [q6, r2], ?_⟩
    intro h
    rw [hf] at h
    exact absurd h (by simp)

/-- The shard length does not grow when one more data shard is used. -/
theorem ceil_div_antitone (n : Nat) (d : Int) (hd : 1 ≤ d) :
    ⌈(n : ℚ) / ((d + 1 : Int) : ℚ)⌉ ≤ ⌈(n : ℚ) / (d : ℚ)⌉ := by
  apply Int.ceil_le_ceil
  have h1 : (0 : ℚ) < (d : ℚ) := by exact_mod_cast (by omega : (0 : Int) < d)
  have h2 : (d : ℚ) ≤ ((d + 1 : Int) : ℚ) := by push_cast; linarith
  exact div_le_div_of_nonneg_left (by positivity) h1 h2

/-- The division by a non-zero size is the exact quotient. -/
theorem floatDiv_of_ne_zero (x y : Int) (hy : y ≠ 0) :
    floatDiv x y = Ratio.finite ((x : ℚ) / (y : ℚ)) := by
  simp [floatDiv, hy]

/-- The division of a positive number by the size zero is the positive infinity. -/
theorem floatDiv_zero_of_pos (x : Int) (hx : 0 < x) : floatDiv x 0 = Ratio.posInf := by
  have h0 : x ≠ 0 := by omega
  simp [floatDiv, h0, hx]

/-- The ratio cell of a row that starts with the row of line 91, for a non-zero size. -/
theorem ratioOf_baseRow (t n d p : Int) (x : Option Shard) (q : Row) (hn : n ≠ 0) :
    ratioOf (baseRow t n d p x ++ q)
      = some (((t * ((x.getD []).length : Int) : Int) : ℚ) / (n : ℚ)) := by
  simp [ratioOf, baseRow, floatDiv_of_ne_zero _ _ hn]

/-- The total `6` is accepted. -/
theorem accepted_six : Accepted 6 := by
  simp [Accepted, validateInput]
  decide

/-- A list of length two is the pair of its two elements. -/
theorem list_eq_pair {α : Type} (l : List α) (h : l.length = 2) :
    l = [l.get ⟨0, by omega⟩, l.get ⟨1, by omega⟩] := by
  match l, h with
  | [a, c], _ => rfl

/-- The probe loop entered below step 2 returns at once. -/
theorem probeLoop_done (enc : Encoder) (t : Int) (flag : Bool) (i : Int) (st : ProbeState)
    (h : i < 2) : probeLoop enc t flag i st = some st := by
  rw [probeLoop, if_neg (by omega)]

/-- One unfolding of the probe loop with reporting disabled. -/
theorem probeLoop_silent (enc : Encoder) (t i : Int) (st : ProbeState) (h2 : i ≥ 2)
    (hlen : (st.shards.length : Int) = t) (hi : i + 1 ≤ t) :
    probeLoop enc t false i st
      = probeLoop enc t false (i - 1)
          ⟨(enc.reconstruct (nilTail (i + 1).toNat st.shards)).2, st.tablerow,
            st.calls ++ [Attempt.mk i (nilTail (i + 1).toNat st.shards)
              (enc.reconstruct (nilTail (i + 1).toNat st.shards)).1]⟩ := by
  rw [probeLoop, if_pos h2, nilLoop_full t i st.shards (by omega) hi hlen]
  simp

/-- The probe loop of `(3, 3)`, `t = 6`, with reporting enabled, on the model codec. -/
theorem probe_six :
    probeLoop (modelEncoder 3 3) 6 true 3 ⟨six, [], []⟩
      = some ⟨nilTail 4 six, [Cell.int 3], [Attempt.mk 3 (nilTail 4 six) false]⟩ := by
  rw [probeLoop_first_fail (modelEncoder 3 3) 6 3 ⟨six, [], []⟩ (by decide) (by decide)
    (by decide) (by decide)]
  rfl

/-- The probe loop of `(2, 2)`, `t = 4`, with reporting enabled, on the model codec. -/
theorem probe_four :
    probeLoop (modelEncoder 2 2) 4 true 2 ⟨four, [], []⟩
      = some ⟨nilTail 3 four, [Cell.int 2], [Attempt.mk 2 (nilTail 3 four) false]⟩ := by
  rw [probeLoop_first_fail (modelEncoder 2 2) 4 2 ⟨four, [], []⟩ (by decide) (by decide)
    (by decide) (by decide)]
  rfl

/-- The probe loop of `(3, 3)`, `t = 6`, with reporting disabled, on the model codec. -/
theorem probe_six_silent :
    probeLoop (modelEncoder 3 3) 6 false 3 ⟨six, [], []⟩
      = some ⟨nilTail 4 six, [],
          [Attempt.mk 3 (nilTail 4 six) false, Attempt.mk 2 (nilTail 4 six) false]⟩ := by
  rw [probeLoop_silent (modelEncoder 3 3) 6 3 ⟨six, [], []⟩ (by decide) (by decide) (by decide)]
  rw [probeLoop_silent (modelEncoder 3 3) 6 (3 - 1) _ (by decide) (by decide) (by decide)]
  rw [probeLoop_done _ _ _ _ _ (by decide)]
  rfl

/-- Every configuration with which `main` starts an iteration of the sweep loop satisfies
the invariant of the sweep. -/
theorem visited_inv (env : Env) (nargs : Nat) (t : Int) (flag : Bool) (hacc : Accepted t)
    (d p : Int) (hv : (d, p) ∈ (main env nargs t flag).visited) :
    d + p = t ∧ d ≥ p ∧ p ≥ 2 ∧ d ≥ 1 := by
  obtain ⟨e1, e2, e3⟩ := accepted_tdiv t hacc
  obtain ⟨m, h1, h2, -, -⟩ := main_visited env nargs t flag hacc
  rw [h2] at hv
  obtain ⟨k, hk, hkd⟩ := List.mem_map.1 hv
  simp only [List.mem_range] at hk
  simp only [Prod.mk.injEq] at hkd
  obtain ⟨hd, hp⟩ := hkd
  omega

/-- The run for `t = 6` on the model codec starts the iterations of `(3, 3)` and `(4, 2)`. -/
theorem visited_six : (main (modelEnv payload7 7) 0 6 true).visited = [(3, 3), (4, 2)] := by
  have hnf := (modelEnv_spec payload7 (by decide) 6 (by decide) 7).1
  obtain ⟨table, -, h2, h3, -⟩ := main_ok (modelEnv payload7 7) 6 true payload7 7 accepted_six hnf
  have hl : table.length = 2 := by omega
  rw [h3, hl]
  simp [List.range_succ]

/-- The shard length of a non-empty payload is positive. -/
theorem ceil_div_pos (n : Nat) (d : Int) (hn : 1 ≤ n) (hd : 1 ≤ d) :
    0 < ⌈(n : ℚ) / (d : ℚ)⌉ := by
  apply Int.ceil_pos.2
  have h1 : (0 : ℚ) < (n : ℚ) := by exact_mod_cast hn
  have h2 : (0 : ℚ) < (d : ℚ) := by exact_mod_cast (by omega : (0 : Int) < d)
  exact div_pos h1 h2

/-! ## The claims -/

/-- C1. `validateInput` fails (exit status 1) if and only if `t > 257`, `t < 4` or `t` is
odd; it succeeds exactly on the even integers between 4 and 256; it has no other outcome;
it rejects 3, 2 and 300 and accepts 4, 6 and 256. -/
theorem validateInput_spec :
    (∀ t : Int, validateInput t = .error (.exit 1) ↔ (t > 257 ∨ t < 4 ∨ Odd t)) ∧
    (∀ t : Int, validateInput t = .ok () ↔ (Even t ∧ 4 ≤ t ∧ t ≤ 256)) ∧
    (∀ t : Int, validateInput t = .ok () ∨ validateInput t = .error (.exit 1)) ∧
    validateInput 3 = .error (.exit 1) ∧ validateInput 2 = .error (.exit 1) ∧
    validateInput 300 = .error (.exit 1) ∧
    validateInput 4 = .ok () ∧ validateInput 6 = .ok () ∧ validateInput 256 = .ok () := by
  have hcases : ∀ t : Int, validateInput t = .ok () ∨ validateInput t = .error (.exit 1) := by
    intro t
    unfold validateInput
    split_ifs <;> simp
  have hok : ∀ t : Int, validateInput t = .ok () ↔ (Even t ∧ 4 ≤ t ∧ t ≤ 256) := by
    intro t
    have := accepted_iff t
    unfold Accepted at this
    rw [this, Int.even_iff]
    constructor <;> intro h <;> omega
  refine ⟨?_, hok, hcases, rfl, rfl, rfl, rfl, rfl, rfl⟩
  intro t
  have hne : validateInput t = .error (.exit 1) ↔ ¬ validateInput t = .ok () := by
    rcases hcases t with h | h <;> simp [h]
  rw [hne, hok, Int.even_iff, Int.odd_iff]
  omega

/-- C2. For every accepted `t` and every environment in which no codec or I/O call fails,
`main` returns, its table has exactly `t/2 - 1` rows, row `k` is the row finished by the
iteration for the configuration `(t/2 + k, t/2 - k)` and starts with these two numbers (not
with the advanced ones); the first row starts with `(t/2, t/2)`, the last with `(t-2, 2)`,
and for `t = 4` the table is the single row of `(2, 2)`. -/
theorem sweep_rows (env : Env) (t : Int) (flag : Bool) (b : List Nat) (size : Int)
    (hacc : Accepted t) (hnf : NoFailure env t b size) :
    ∃ table : List Row, (main env 0 t flag).outcome = .ok table ∧
      (table.length : Int) = t / 2 - 1 ∧
      (∀ (k : Nat) (hk : k < table.length),
        iteration env t flag size (t / 2 + k) (t / 2 - k) = .ok (table.get ⟨k, hk⟩) ∧
        ∃ rest, table.get ⟨k, hk⟩ = Cell.int (t / 2 + k) :: Cell.int (t / 2 - k) :: rest) ∧
      (∃ rest, table.head? = some (Cell.int (t / 2) :: Cell.int (t / 2) :: rest)) ∧
      (∃ rest, table.getLast? = some (Cell.int (t - 2) :: Cell.int 2 :: rest)) ∧
      (t = 4 → ∃ rest, table = [Cell.int 2 :: Cell.int 2 :: rest]) := by
  obtain ⟨e1, e2, e3⟩ := accepted_tdiv t hacc
  obtain ⟨table, h1, h2, h3⟩ := main_rows env t flag b size hacc hnf
  obtain ⟨table2, g1, -, -, g3⟩ := main_ok env t flag b size hacc hnf
  have htt : table2 = table := Except.ok.inj (g1.symm.trans h1)
  subst htt
  have hrow : ∀ (k : Nat) (hk : k < table2.length),
      ∃ rest, table2.get ⟨k, hk⟩ = Cell.int (t / 2 + k) :: Cell.int (t / 2 - k) :: rest := by
    intro k hk
    obtain ⟨enc, s0, x, rest, st2, q1, q2, q3, q4, q5, q6⟩ := h3 k hk
    obtain ⟨st3, r1, r2⟩ := probeLoop_tablerow enc t flag (t / 2 - k)
      ⟨x :: rest, baseRow t size (t / 2 + k) (t / 2 - k) x, []⟩ q4 (by omega)
    rw [q5] at r1
    have : st3 = st2 := (Option.some.inj r1).symm
    subst this
    rw [q6]
    rcases r2 with r2 | ⟨-, j, -, -, r2⟩
    · exact ⟨_, by rw [r2]; rfl⟩
    · exact ⟨_, by rw [r2]; rfl⟩
  have hpos : 0 < table2.length := by omega
  refine ⟨table2, h1, h2, fun k hk => ⟨g3 k hk, hrow k hk⟩, ?_, ?_, ?_⟩
  · obtain ⟨rest, hr⟩ := hrow 0 hpos
    refine ⟨rest, ?_⟩
    cases table2 with
    | nil => simp at hpos
    | cons r rs => simpa using hr
  · obtain ⟨rest, hr⟩ := hrow (table2.length - 1) (by omega)
    refine ⟨rest, ?_⟩
    have e4 : t / 2 + ((table2.length - 1 : Nat) : Int) = t - 2 := by omega
    have e5 : t / 2 - ((table2.length - 1 : Nat) : Int) = 2 := by omega
    rw [e4, e5] at hr
    rw [List.getLast?_eq_getElem?, List.getElem?_eq_getElem (by omega)]
    simp only [List.get_eq_getElem] at hr
    rw [hr]
  · intro h4
    subst h4
    obtain ⟨rest, hr⟩ := hrow 0 hpos
    refine ⟨rest, ?_⟩
    have hl : table2.length = 1 := by omega
    cases table2 with
    | nil => simp at hpos
    | cons r rs =>
      cases rs with
      | nil => simpa using hr
      | cons r2 rs2 => simp at hl

/-- Witness of C2: `t = 6` with the model codec visits `(3, 3)` then `(4, 2)`. -/
theorem sweep_rows_witness :
    Accepted 6 ∧ NoFailure (modelEnv payload7 7) 6 payload7 7 ∧
    ∃ rest0 rest1, (main (modelEnv payload7 7) 0 6 true).outcome
      = .ok [Cell.int 3 :: Cell.int 3 :: rest0, Cell.int 4 :: Cell.int 2 :: rest1] := by
  have hnf := (modelEnv_spec payload7 (by decide) 6 (by decide) 7).1
  refine ⟨accepted_six, hnf, ?_⟩
  obtain ⟨table, h1, h2, h3, -⟩ :=
    sweep_rows (modelEnv payload7 7) 6 true payload7 7 accepted_six hnf
  have hl : table.length = 2 := by omega
  obtain ⟨rest0, hr0⟩ := (h3 0 (by omega)).2
  obtain ⟨rest1, hr1⟩ := (h3 1 (by omega)).2
  refine ⟨rest0, rest1, ?_⟩
  rw [h1, list_eq_pair table hl, hr0, hr1]
  norm_num

/-- C3. In every run of `main` on an accepted `t`, whatever fails: every configuration
`(d, p)` with which an iteration of the sweep loop is started (for which a codec is
constructed) satisfies `d + p = t`, `d ≥ p`, `p ≥ 2` and `d ≥ 1`; the iterations started
are those of `(t/2 + k, t/2 - k)` for `k < m`, in this order, for some `m ≤ t/2 - 1`, with
`m ≥ 1` as soon as the arguments and the file size are obtained and `m = t/2 - 1` when
`main` returns a table; and the iteration started after that of `(d, p)` is that of
`(d + 1, p - 1)`, the advance step, which keeps the sum. -/
theorem sweep_invariant (env : Env) (nargs : Nat) (t : Int) (flag : Bool)
    (hacc : Accepted t) :
    (∀ d p : Int, (d, p) ∈ (main env nargs t flag).visited →
      d + p = t ∧ d ≥ p ∧ p ≥ 2 ∧ d ≥ 1) ∧
    (∃ m : Nat, (m : Int) ≤ t / 2 - 1 ∧
      (main env nargs t flag).visited
        = (List.range m).map (fun (k : Nat) => (t / 2 + (k : Int), t / 2 - (k : Int))) ∧
      (nargs = 0 → (∃ size, env.statSize = some size) → 1 ≤ m) ∧
      (∀ table, (main env nargs t flag).outcome = .ok table → (m : Int) = t / 2 - 1)) ∧
    (∀ (k : Nat) (d p : Int), (main env nargs t flag).visited.get? k = some (d, p) →
      k + 1 < (main env nargs t flag).visited.length →
      (main env nargs t flag).visited.get? (k + 1) = some (d + 1, p - 1) ∧
      (d + 1) + (p - 1) = d + p) := by
  obtain ⟨m, h1, h2, h3, h4⟩ := main_visited env nargs t flag hacc
  refine ⟨visited_inv env nargs t flag hacc, ⟨m, h1, h2, h3, h4⟩, ?_⟩
  intro k d p hk hk1
  rw [h2] at hk hk1 ⊢
  simp only [List.length_map, List.length_range] at hk1
  have hk0 : k < m := by omega
  rw [List.get?_eq_getElem?, List.getElem?_map, List.getElem?_range hk0] at hk
  rw [List.get?_eq_getElem?, List.getElem?_map, List.getElem?_range hk1]
  simp only [Option.map_some', Option.some.injEq, Prod.mk.injEq] at hk ⊢
  obtain ⟨hd, hp⟩ := hk
  refine ⟨⟨?_, ?_⟩, by ring⟩
  · rw [← hd]; push_cast; ring
  · rw [← hp]; push_cast; ring

/-- Witness of C3: a run for `t = 6` with the model codec starts the iterations of `(3, 3)`
and, after the advance step, of `(4, 2)`; both satisfy the invariant. -/
theorem sweep_invariant_witness :
    Accepted 6 ∧ (main (modelEnv payload7 7) 0 6 true).visited = [(3, 3), (4, 2)] ∧
    ((3 : Int) + 3 = 6 ∧ (3 : Int) ≥ 3 ∧ (3 : Int) ≥ 2 ∧ (3 : Int) ≥ 1) ∧
    ((4 : Int) + 2 = 6 ∧ (4 : Int) ≥ 2 ∧ (2 : Int) ≥ 2 ∧ (4 : Int) ≥ 1) ∧
    (main (modelEnv payload7 7) 0 6 true).visited.get? (0 + 1) = some (3 + 1, 3 - 1) := by
  obtain ⟨h1, -, h3⟩ := sweep_invariant (modelEnv payload7 7) 0 6 true accepted_six
  have hv := visited_six
  refine ⟨accepted_six, hv, h1 3 3 (by rw [hv]; simp), h1 4 2 (by rw [hv]; simp), ?_⟩
  exact (h3 0 3 3 (by rw [hv]; rfl) (by rw [hv]; decide)).1

/-- C4. For a reconstruct oracle that restores every absent shard on success, a
configuration `(d, p)` with `d ≥ 1`, `p ≥ 2`, `d + p = t` and a fully present shard set of
`t` shards: with reporting enabled the probe loop returns; its reconstruction attempts are
made at `i = p, p-1, ...` in this order, each with `2 ≤ i` and with exactly the last `i+1`
shards absent; every attempt before the last succeeded; either the last attempt failed at
some `i` and the row got the one extra cell `t - i`, or all attempts for `i = p, ..., 2`
succeeded and the row is unchanged. With reporting disabled the row is unchanged for every
oracle. -/
theorem probe_result (enc : Encoder) (t d p : Int) (shards : Shards) (row : Row)
    (hR : Restoring enc) (hd : 1 ≤ d) (hp : 2 ≤ p) (ht : d + p = t)
    (hlen : (shards.length : Int) = t) (hall : allPresent shards = true) :
    (∃ st2, probeLoop enc t true p ⟨shards, row, []⟩ = some st2 ∧
      st2.calls.map Attempt.step
        = (List.range st2.calls.length).map (fun (k : Nat) => p - (k : Int)) ∧
      (∀ a ∈ st2.calls, 2 ≤ a.step ∧ a.step ≤ p ∧ a.ok = (enc.reconstruct a.shards).1 ∧
        a.shards.length = shards.length ∧
        absentExactlyLast (a.step + 1).toNat a.shards = true) ∧
      (∀ a ∈ st2.calls.dropLast, a.ok = true) ∧
      ((∃ a, st2.calls.getLast? = some a ∧ a.ok = false ∧
          st2.tablerow = row ++ [Cell.int (t - a.step)]) ∨
        ((∀ a ∈ st2.calls, a.ok = true) ∧ (st2.calls.length : Int) = p - 1 ∧
          st2.tablerow = row))) ∧
    (∀ enc2 : Encoder, ∃ st2, probeLoop enc2 t false p ⟨shards, row, []⟩ = some st2 ∧
      st2.tablerow = row) := by
  constructor
  · obtain ⟨st2, new, h1, -, h3, h4, h5, h6, h7⟩ :=
      probeLoop_spec enc t true p ⟨shards, row, []⟩ hlen (by omega)
    simp only [List.nil_append] at h3
    subst h3
    refine ⟨st2, h1, h4, ?_, h6 rfl, ?_⟩
    · intro a ha
      obtain ⟨q1, q2, s0, q3, q4, q5⟩ := h5 a ha
      have hle := step_le_of_mem p st2.calls a ha h4
      have hs0 : s0.length = shards.length := q3
      have hn : (a.step + 1).toNat ≤ s0.length := by omega
      refine ⟨q1, hle, q2, ?_, ?_⟩
      · rw [q4, nilTail_length _ _ hn, hs0]
      · rw [q4]
        exact nilTail_absent _ _ hn (q5 hR hall rfl)
    · rcases h7 with ⟨-, a, ha, hok, hrow⟩ | ⟨hrow, hl, hok⟩
      · left; exact ⟨a, ha, hok, hrow⟩
      · right; exact ⟨hok rfl, by omega, hrow⟩
  · intro enc2
    obtain ⟨st2, h1, h2⟩ := probeLoop_tablerow enc2 t false p ⟨shards, row, []⟩ hlen (by omega)
    refine ⟨st2, h1, ?_⟩
    rcases h2 with h2 | ⟨hf, -⟩
    · exact h2
    · exact absurd hf (by simp)

/-- Witness of C4: the configuration `(3, 3)` of `t = 6` with the model codec. The only
attempt is made at `i = 3` with exactly the last four shards absent; it fails and the row
gets the cell `6 - 3`. -/
theorem probe_result_witness :
    Restoring (modelEncoder 3 3) ∧ allPresent six = true ∧
    ∃ st2, probeLoop (modelEncoder 3 3) 6 true 3 ⟨six, [], []⟩ = some st2 ∧
      st2.calls.map Attempt.step = [3] ∧ st2.calls.map Attempt.ok = [false] ∧
      st2.calls.map (fun a => absentExactlyLast 4 a.shards) = [true] ∧
      st2.tablerow = [Cell.int (6 - 3)] := by
  refine ⟨modelEncoder_restoring 3 3, by decide, ?_⟩
  obtain ⟨⟨st2, h1, -⟩, -⟩ := probe_result (modelEncoder 3 3) 6 3 3 six []
    (modelEncoder_restoring 3 3) (by decide) (by decide) (by decide) (by decide) (by decide)
  refine ⟨st2, h1, ?_⟩
  rw [probe_six] at h1
  cases h1
  decide

/-- C5. Under the codec contract that reconstruction succeeds exactly when at least
`dataShards` shards are present (and the encoded shard set has no absent shard), for every
accepted `t`, with read-quorum reporting enabled and no failing codec or I/O call, `main`
returns a table of `t/2 - 1` rows in which every row has a fourth cell, the recorded read
quorum, equal to the `dataShards` of that row. -/
theorem read_quorum_is_dataShards (env : Env) (t : Int) (b : List Nat) (size : Int)
    (hacc : Accepted t) (hnf : NoFailure env t b size) (hq : QuorumContract env t b) :
    ∃ table : List Row, (main env 0 t true).outcome = .ok table ∧
      (table.length : Int) = t / 2 - 1 ∧
      ∀ (k : Nat) (hk : k < table.length), ∃ r : Ratio,
        table.get ⟨k, hk⟩
          = [Cell.int (t / 2 + k), Cell.int (t / 2 - k), Cell.ratio r, Cell.int (t / 2 + k)] := by
  obtain ⟨e1, e2, e3⟩ := accepted_tdiv t hacc
  obtain ⟨table, h1, h2, h3⟩ := main_rows env t true b size hacc hnf
  refine ⟨table, h1, h2, ?_⟩
  intro k hk
  obtain ⟨enc, s0, x, rest, st2, q1, q2, q3, q4, q5, q6⟩ := h3 k hk
  obtain ⟨hall, hthr⟩ := hq (t / 2 + k) (t / 2 - k) enc s0 (x :: rest) (by omega) (by omega)
    (by omega) q1 q2 q3
  have hn : (t / 2 - (k : Int) + 1).toNat ≤ (x :: rest).length := by omega
  have hpres := present_of_absentExactlyLast _ _ (nilTail_absent _ _ hn hall)
  rw [nilTail_length _ _ hn] at hpres
  have hfail : (enc.reconstruct (nilTail (t / 2 - (k : Int) + 1).toNat (x :: rest))).1 = false := by
    rw [Bool.eq_false_iff]
    intro hc
    have := (hthr _).1 hc
    omega
  have := probeLoop_first_fail enc t (t / 2 - k)
    ⟨x :: rest, baseRow t size (t / 2 + k) (t / 2 - k) x, []⟩ (by omega) q4 (by omega) hfail
  rw [q5] at this
  have hst := Option.some.inj this
  have hd : t - (t / 2 - (k : Int)) = t / 2 + k := by omega
  refine ⟨floatDiv (t * (((x.getD []).length : Nat) : Int)) size, ?_⟩
  rw [q6, hst]
  simp only [baseRow, List.cons_append, List.nil_append, hd]

/-- Witness of C5: `t = 6` with the model codec. The rows record the read quorums 3 and 4;
for `(3, 3)` removing the last four shards fails and removing the last three succeeds. -/
theorem read_quorum_witness :
    Accepted 6 ∧ NoFailure (modelEnv payload600 600) 6 payload600 600 ∧
    QuorumContract (modelEnv payload600 600) 6 payload600 ∧
    (∃ r0 r1, (main (modelEnv payload600 600) 0 6 true).outcome
      = .ok [[Cell.int 3, Cell.int 3, Cell.ratio r0, Cell.int 3],
             [Cell.int 4, Cell.int 2, Cell.ratio r1, Cell.int 4]]) ∧
    ((modelEncoder 3 3).reconstruct (nilTail 4 six)).1 = false ∧
    ((modelEncoder 3 3).reconstruct (nilTail 3 six)).1 = true := by
  have hb : payload600 ≠ [] := by decide
  obtain ⟨hnf, -, hq⟩ := modelEnv_spec payload600 hb 6 (by decide) 600
  refine ⟨accepted_six, hnf, hq, ?_, by decide, by decide⟩
  obtain ⟨table, h1, h2, h3⟩ :=
    read_quorum_is_dataShards (modelEnv payload600 600) 6 payload600 600 accepted_six hnf hq
  have hl : table.length = 2 := by omega
  obtain ⟨r0, hr0⟩ := h3 0 (by omega)
  obtain ⟨r1, hr1⟩ := h3 1 (by omega)
  refine ⟨r0, r1, ?_⟩
  rw [h1, list_eq_pair table hl, hr0, hr1]
  norm_num

/-- C6. For every accepted `t`, a payload of `n` bytes read from an input file whose size
`s ≥ 1` is the divisor of line 90 (`s = n` for the payload of `n ≥ 1` bytes of the claim),
no failing call and shards of `⌈n/d⌉` bytes, the storage ratio `t · ⌈n/d⌉ / s` of every row
of the table of `main` is less than or equal to the ratio of the row just before it. -/
theorem storage_ratio_antitone (env : Env) (t : Int) (flag : Bool) (b : List Nat) (size : Int)
    (hacc : Accepted t) (hnf : NoFailure env t b size) (hceil : CeilSplit env t b)
    (hs : 1 ≤ size) :
    ∃ table : List Row, (main env 0 t flag).outcome = .ok table ∧
      (table.length : Int) = t / 2 - 1 ∧
      ∀ (k : Nat) (hk : k + 1 < table.length), ∃ r1 r2 : ℚ,
        ratioOf (table.get ⟨k, Nat.lt_of_succ_lt hk⟩) = some r1 ∧
        ratioOf (table.get ⟨k + 1, hk⟩) = some r2 ∧
        r1 = (t : ℚ) * (⌈(b.length : ℚ) / ((t / 2 + k : Int) : ℚ)⌉ : ℚ) / (size : ℚ) ∧
        r2 = (t : ℚ) * (⌈(b.length : ℚ) / ((t / 2 + k + 1 : Int) : ℚ)⌉ : ℚ) / (size : ℚ) ∧
        r2 ≤ r1 := by
  obtain ⟨e1, e2, e3⟩ := accepted_tdiv t hacc
  obtain ⟨table, h1, h2, h3⟩ := main_ratio_rows env t flag b size hacc hnf hceil
  refine ⟨table, h1, h2, ?_⟩
  intro k hk
  obtain ⟨_, _, _, x, q, -, -, -, -, -, q6, q7, -⟩ := h3 k (Nat.lt_of_succ_lt hk)
  obtain ⟨_, _, _, y, q', -, -, -, -, -, p6, p7, -⟩ := h3 (k + 1) hk
  have hs0 : size ≠ 0 := by omega
  have hnq : (0 : ℚ) < (size : ℚ) := by exact_mod_cast (by omega : (0 : Int) < size)
  have htq : (0 : ℚ) ≤ (t : ℚ) := by exact_mod_cast (by omega : (0 : Int) ≤ t)
  have hk1 : (t / 2 + ((k + 1 : Nat) : Int)) = t / 2 + k + 1 := by push_cast; ring
  rw [hk1] at p6
  refine ⟨_, _, by rw [q7]; exact ratioOf_baseRow _ _ _ _ _ _ hs0,
    by rw [p7]; exact ratioOf_baseRow _ _ _ _ _ _ hs0, ?_, ?_, ?_⟩
  · rw [q6]; push_cast; rfl
  · rw [p6]; push_cast; rfl
  · rw [q6, p6]
    have hmono := ceil_div_antitone b.length (t / 2 + k) (by omega)
    have hmq : ((⌈(b.length : ℚ) / ((t / 2 + k + 1 : Int) : ℚ)⌉ : Int) : ℚ)
        ≤ ((⌈(b.length : ℚ) / ((t / 2 + k : Int) : ℚ)⌉ : Int) : ℚ) := by exact_mod_cast hmono
    push_cast at hmq ⊢
    apply div_le_div_of_nonneg_right _ hnq.le
    exact mul_le_mul_of_nonneg_left hmq htq

/-- Witness of C6: `t = 6`, a regular file of 600 bytes: the ratio of `(4, 2)` is at most
the ratio of `(3, 3)`. -/
theorem storage_ratio_antitone_witness :
    Accepted 6 ∧ NoFailure (modelEnv payload600 600) 6 payload600 600 ∧
    CeilSplit (modelEnv payload600 600) 6 payload600 ∧ (1 : Int) ≤ 600 ∧
    ∃ table r1 r2, (main (modelEnv payload600 600) 0 6 false).outcome = .ok table ∧
      (table.get? 0).bind ratioOf = some r1 ∧ (table.get? 1).bind ratioOf = some r2 ∧
      r2 ≤ r1 := by
  have hb : payload600 ≠ [] := by decide
  obtain ⟨hnf, hceil, -⟩ := modelEnv_spec payload600 hb 6 (by decide) 600
  refine ⟨accepted_six, hnf, hceil, by decide, ?_⟩
  obtain ⟨table, h1, h2, h3⟩ :=
    storage_ratio_antitone (modelEnv payload600 600) 6 false payload600 600 accepted_six hnf
      hceil (by decide)
  have hl : table.length = 2 := by omega
  obtain ⟨r1, r2, a1, a2, -, -, a5⟩ := h3 0 (by omega)
  refine ⟨table, r1, r2, h1, ?_, ?_, a5⟩
  · rw [List.get?_eq_get (by omega)]; exact a1
  · rw [List.get?_eq_get (by omega)]; exact a2

/-- Counterexample to C7 as stated: an input file whose reported size is 0 while 600
bytes are read from it (as for the files under `/proc`), `t = 6`. No call fails, the
shards have `⌈n/d⌉` bytes, and yet the ratio cell of both rows is the positive infinity,
not `t · ⌈n/d⌉ / n`: the divisor of line 90 is the size reported by `Stat`, not the number
of bytes that were read and split. -/
theorem ratio_divides_by_stat_size :
    Accepted 6 ∧ NoFailure (modelEnv payload600 0) 6 payload600 0 ∧
    CeilSplit (modelEnv payload600 0) 6 payload600 ∧ 1 ≤ payload600.length ∧
    (main (modelEnv payload600 0) 0 6 false).outcome
      = .ok [[Cell.int 3, Cell.int 3, Cell.ratio Ratio.posInf],
             [Cell.int 4, Cell.int 2, Cell.ratio Ratio.posInf]] ∧
    Ratio.posInf
      ≠ Ratio.finite ((6 : ℚ) * (⌈((600 : Nat) : ℚ) / ((3 : Int) : ℚ)⌉ : ℚ) / ((600 : Nat) : ℚ)) := by
  have hb : payload600 ≠ [] := by decide
  have hlen : payload600.length = 600 := List.length_replicate _ _
  obtain ⟨hnf, hceil, -⟩ := modelEnv_spec payload600 hb 6 (by decide) 0
  refine ⟨accepted_six, hnf, hceil, by omega, ?_, fun h => Ratio.noConfusion h⟩
  obtain ⟨table, h1, h2, h3⟩ :=
    main_ratio_rows (modelEnv payload600 0) 6 false payload600 0 accepted_six hnf hceil
  have hl : table.length = 2 := by omega
  obtain ⟨-, -, -, x, q0, -, -, -, -, -, a6, a7, a8⟩ := h3 0 (by omega)
  obtain ⟨-, -, -, y, q1, -, -, -, -, -, b6, b7, b8⟩ := h3 1 (by omega)
  have hx : (0 : Int) < 6 * ((x.getD []).length : Int) := by
    have := ceil_div_pos payload600.length (6 / 2 + ((0 : Nat) : Int)) (by omega) (by decide)
    rw [a6]; omega
  have hy : (0 : Int) < 6 * ((y.getD []).length : Int) := by
    have := ceil_div_pos payload600.length (6 / 2 + ((1 : Nat) : Int)) (by omega) (by decide)
    rw [b6]; omega
  rw [a8 rfl] at a7
  rw [b8 rfl] at b7
  simp only [baseRow, List.append_nil, floatDiv_zero_of_pos _ hx] at a7
  simp only [baseRow, List.append_nil, floatDiv_zero_of_pos _ hy] at b7
  rw [h1, list_eq_pair table hl, a7, b7]
  norm_num

/-- C7 (amended). For every accepted `t`, a payload of `n ≥ 1` bytes read from an input
file of reported size `s`, no failing call and shards of `⌈n/d⌉` bytes: row `k` of the
table of `main` is `[d, p, ratio]` for `d = t/2 + k`, `p = t/2 - k` (followed by the
read-quorum cell only when reporting is enabled), where the ratio is the division of
(number of shards × length of shard 0) = `t · ⌈n/d⌉` by `s`: the positive infinity when
`s = 0`, the quotient `t · ⌈n/d⌉ / s` otherwise; when the reported size is the number of
bytes read, `s = n`, it is `t · ⌈n/d⌉ / n`, which equals `t / d` whenever `d` divides `n`. -/
theorem storage_ratio_value (env : Env) (t : Int) (flag : Bool) (b : List Nat) (size : Int)
    (hacc : Accepted t) (hnf : NoFailure env t b size) (hceil : CeilSplit env t b)
    (hn : 1 ≤ b.length) :
    ∃ table : List Row, (main env 0 t flag).outcome = .ok table ∧
      (table.length : Int) = t / 2 - 1 ∧
      ∀ (k : Nat) (hk : k < table.length), ∃ (r : Ratio) (q : Row),
        table.get ⟨k, hk⟩ = [Cell.int (t / 2 + k), Cell.int (t / 2 - k), Cell.ratio r] ++ q ∧
        (flag = false → q = []) ∧
        (∃ enc s0 s x, env.newEncoder (t / 2 + k) (t / 2 - k) = some enc ∧
          enc.split b = some s0 ∧ enc.encode s0 = some s ∧ s.head? = some x ∧
          r = floatDiv ((s.length : Int) * ((x.getD []).length : Int)) size) ∧
        r = floatDiv (t * ⌈(b.length : ℚ) / ((t / 2 + k : Int) : ℚ)⌉) size ∧
        (size = 0 → r = Ratio.posInf) ∧
        (size ≠ 0 →
          r = Ratio.finite
            ((t : ℚ) * (⌈(b.length : ℚ) / ((t / 2 + k : Int) : ℚ)⌉ : ℚ) / (size : ℚ)) ∧
          ratioOf (table.get ⟨k, hk⟩)
            = some ((t : ℚ) * (⌈(b.length : ℚ) / ((t / 2 + k : Int) : ℚ)⌉ : ℚ) / (size : ℚ))) ∧
        (size = (b.length : Int) →
          r = Ratio.finite
            ((t : ℚ) * (⌈(b.length : ℚ) / ((t / 2 + k : Int) : ℚ)⌉ : ℚ) / (b.length : ℚ)) ∧
          ((t / 2 + (k : Int)) ∣ (b.length : Int) →
            r = Ratio.finite ((t : ℚ) / ((t / 2 + k : Int) : ℚ)))) := by
  obtain ⟨e1, e2, e3⟩ := accepted_tdiv t hacc
  obtain ⟨table, h1, h2, h3⟩ := main_ratio_rows env t flag b size hacc hnf hceil
  refine ⟨table, h1, h2, ?_⟩
  intro k hk
  obtain ⟨enc, s0, s, x, q, q1, q2, q3, q4, q5, q6, q7, q8⟩ := h3 k hk
  have hpos := ceil_div_pos b.length (t / 2 + k) hn (by omega)
  have hfin : ∀ z : Int, z ≠ 0 →
      floatDiv (t * ((x.getD []).length : Int)) z
        = Ratio.finite
            ((t : ℚ) * (⌈(b.length : ℚ) / ((t / 2 + k : Int) : ℚ)⌉ : ℚ) / (z : ℚ)) := by
    intro z hz
    rw [floatDiv_of_ne_zero _ _ hz, q6]
    push_cast
    rfl
  refine ⟨floatDiv (t * ((x.getD []).length : Int)) size, q, by rw [q7]; rfl, q8,
    ⟨enc, s0, s, x, q1, q2, q3, q4, by rw [q5]⟩, by rw [q6], ?_, ?_, ?_⟩
  · intro hz
    rw [hz]
    exact floatDiv_zero_of_pos _ (by rw [q6]; exact Int.mul_pos (by omega) hpos)
  · intro hz
    refine ⟨hfin size hz, ?_⟩
    rw [q7, ratioOf_baseRow _ _ _ _ _ _ hz, q6]
    push_cast
    rfl
  · intro hsz
    have hz : size ≠ 0 := by omega
    have hfin2 := hfin size hz
    rw [hsz] at hfin2 ⊢
    have hcast : (((b.length : Nat) : Int) : ℚ) = (b.length : ℚ) := by push_cast; rfl
    rw [hcast] at hfin2
    refine ⟨hfin2, ?_⟩
    rintro ⟨c, hc⟩
    rw [hfin2]
    congr 1
    have hnq : (0 : ℚ) < (b.length : ℚ) := by exact_mod_cast hn
    have hdq : (0 : ℚ) < ((t / 2 + k : Int) : ℚ) := by
      exact_mod_cast (by omega : (0 : Int) < t / 2 + k)
    have hcq : (b.length : ℚ) = ((t / 2 + k : Int) : ℚ) * (c : ℚ) := by exact_mod_cast hc
    have hcpos : (0 : ℚ) < (c : ℚ) := by
      by_contra hneg
      have : ((t / 2 + k : Int) : ℚ) * (c : ℚ) ≤ 0 :=
        mul_nonpos_of_nonneg_of_nonpos hdq.le (not_lt.1 hneg)
      linarith
    have hce : ⌈(b.length : ℚ) / ((t / 2 + k : Int) : ℚ)⌉ = c := by
      rw [hcq, mul_div_cancel_left₀ _ hdq.ne']
      exact Int.ceil_intCast c
    rw [hce, hcq]
    field_simp
    ring

/-- Witness of the amended C7: `t = 6`, a regular file of 600 bytes, reporting disabled.
The sweep visits `(3, 3)` and `(4, 2)` with storage ratios `2` and `3/2`; for `(3, 3)` the
model codec produces six shards of 200 bytes each, 1200 bytes in total. -/
theorem storage_ratio_value_witness :
    Accepted 6 ∧ NoFailure (modelEnv payload600 600) 6 payload600 600 ∧
    CeilSplit (modelEnv payload600 600) 6 payload600 ∧ 1 ≤ payload600.length ∧
    (main (modelEnv payload600 600) 0 6 false).outcome
      = .ok [[Cell.int 3, Cell.int 3, Cell.ratio (Ratio.finite 2)],
             [Cell.int 4, Cell.int 2, Cell.ratio (Ratio.finite (3 / 2))]] ∧
    (∃ s, (modelEncoder 3 3).split payload600 = some s ∧ s.length = 6 ∧
      (∀ x ∈ s, (x.getD []).length = 200) ∧ s.length * 200 = 1200) := by
  have hb : payload600 ≠ [] := by decide
  have hlen : payload600.length = 600 := List.length_replicate _ _
  obtain ⟨hnf, hceil, -⟩ := modelEnv_spec payload600 hb 6 (by decide) 600
  refine ⟨accepted_six, hnf, hceil, by omega, ?_, ?_⟩
  · obtain ⟨table, h1, h2, h3⟩ :=
      storage_ratio_value (modelEnv payload600 600) 6 false payload600 600 accepted_six hnf
        hceil (by omega)
    have hl : table.length = 2 := by omega
    have hsz : (600 : Int) = (payload600.length : Int) := by rw [hlen]; rfl
    obtain ⟨r0, q0, a1, a2, -, -, -, -, a6⟩ := h3 0 (by omega)
    obtain ⟨r1, q1, b1, b2, -, -, -, -, b6⟩ := h3 1 (by omega)
    rw [a2 rfl] at a1
    rw [b2 rfl] at b1
    have e0 : r0 = Ratio.finite 2 := by
      rw [(a6 hsz).2 (by rw [hlen]; norm_num)]
      norm_num
    have e1 : r1 = Ratio.finite (3 / 2) := by
      rw [(b6 hsz).2 (by rw [hlen]; norm_num)]
      norm_num
    rw [h1, list_eq_pair table hl, a1, b1, e0, e1]
    norm_num
  · obtain ⟨s, g1, g2, -, g4⟩ :=
      modelSplit_eq (3 : Int).toNat (3 : Int).toNat payload600 hb (by decide)
    have e3 : (3 : Int).toNat = 3 := rfl
    rw [e3] at g2 g4
    refine ⟨s, g1, g2, ?_, by rw [g2]⟩
    intro x hx
    rw [g4 x hx, hlen]

/-- Counterexample to C8 as stated: for `t = 4`, configuration `(2, 2)`, the attempt at
`i = 2` is made with the last three shards absent; it fails, the value `4 - 2 = 2` is
recorded, but only one shard was present at that attempt. -/
theorem recorded_value_is_not_present_count :
    ∃ st2 a, probeLoop (modelEncoder 2 2) 4 true 2 ⟨four, [], []⟩ = some st2 ∧
      st2.calls.getLast? = some a ∧ a.ok = false ∧ a.step = 2 ∧
      st2.tablerow = [Cell.int (4 - a.step)] ∧
      present a.shards = 1 ∧ (present a.shards : Int) ≠ 4 - a.step :=
  ⟨_, Attempt.mk 2 (nilTail 3 four) false, probe_four, rfl, rfl, rfl, rfl, by decide, by decide⟩

/-- C8 (amended). When an attempt fails at probe step `i` with reporting enabled, the row
gets the cell `t - i`, and this value is strictly larger than the number of shards present
in the shard set handed to that failed attempt; for an oracle that restores every absent
shard on success and a fully present initial shard set it is exactly one more than that
number (`t - i - 1` shards were present). -/
theorem quorum_is_present_plus_one (enc : Encoder) (t d p : Int) (shards : Shards) (row : Row)
    (hd : 1 ≤ d) (ht : d + p = t) (hlen : (shards.length : Int) = t) :
    ∃ st2, probeLoop enc t true p ⟨shards, row, []⟩ = some st2 ∧
      ∀ a, st2.calls.getLast? = some a → a.ok = false →
        st2.tablerow = row ++ [Cell.int (t - a.step)] ∧
        (present a.shards : Int) < t - a.step ∧
        (Restoring enc → allPresent shards = true →
          t - a.step = (present a.shards : Int) + 1) := by
  obtain ⟨st2, new, h1, -, h3, h4, h5, h6, h7⟩ :=
    probeLoop_spec enc t true p ⟨shards, row, []⟩ hlen (by omega)
  simp only [List.nil_append] at h3
  subst h3
  refine ⟨st2, h1, ?_⟩
  intro a ha hok
  have hmem : a ∈ st2.calls := List.mem_of_getLast?_eq_some ha
  obtain ⟨q1, q2, s0, q3, q4, q5⟩ := h5 a hmem
  have hle := step_le_of_mem p st2.calls a hmem h4
  have hs0 : s0.length = shards.length := q3
  have hn : (a.step + 1).toNat ≤ s0.length := by omega
  refine ⟨?_, ?_, ?_⟩
  · rcases h7 with ⟨-, a2, ha2, -, hrow⟩ | ⟨-, -, hall⟩
    · rw [ha] at ha2
      cases ha2
      exact hrow
    · have := hall rfl a hmem
      rw [hok] at this
      exact absurd this (by simp)
  · have := present_nilTail_le _ _ hn
    rw [q4]
    omega
  · intro hR hall
    have := present_of_absentExactlyLast _ _ (nilTail_absent _ _ hn (q5 hR hall rfl))
    rw [nilTail_length _ _ hn] at this
    rw [q4]
    omega

/-- Witness of the amended C8: configuration `(3, 3)` of `t = 6`; the failed attempt at
`i = 3` saw two present shards and the recorded value is `3`. -/
theorem quorum_is_present_plus_one_witness :
    ∃ st2 a, probeLoop (modelEncoder 3 3) 6 true 3 ⟨six, [], []⟩ = some st2 ∧
      st2.calls.getLast? = some a ∧ a.ok = false ∧
      st2.tablerow = [] ++ [Cell.int (6 - a.step)] ∧
      (present a.shards : Int) < 6 - a.step ∧
      (6 : Int) - a.step = (present a.shards : Int) + 1 ∧ present a.shards = 2 := by
  obtain ⟨st2, h1, h2⟩ := quorum_is_present_plus_one (modelEncoder 3 3) 6 3 3 six []
    (by decide) (by decide) (by decide)
  have h3 := h1
  rw [probe_six] at h3
  cases h3
  obtain ⟨g1, g2, g3⟩ := h2 (Attempt.mk 3 (nilTail 4 six) false) rfl rfl
  exact ⟨_, _, h1, rfl, rfl, g1, g2, g3 (modelEncoder_restoring 3 3) (by decide), by decide⟩

/-- Counterexample to C9 as stated: with reporting disabled, for `t = 6` and configuration
`(3, 3)`, the probe loop makes two reconstruction attempts (not zero), the second one after
the first has failed, and the shard set is not left as encoded. -/
theorem probe_runs_without_reporting :
    ∃ st2, probeLoop (modelEncoder 3 3) 6 false 3 ⟨six, [], []⟩ = some st2 ∧
      st2.calls.map (fun a => (a.step, a.ok)) = [(3, false), (2, false)] ∧
      st2.calls.length ≠ 0 ∧ st2.shards ≠ six :=
  ⟨_, probe_six_silent, rfl, by decide, by decide⟩

/-- C9 (amended). For every configuration and every reconstruct oracle: with reporting
enabled no reconstruction attempt follows a failed one (every attempt but the last
succeeded); with reporting disabled the probe loop still runs, making one attempt at each
of `i = p, p-1, ..., 2` whatever their outcomes, and leaves the row unchanged. -/
theorem probe_stops_when_reporting (enc : Encoder) (t d p : Int) (shards : Shards) (row : Row)
    (hd : 1 ≤ d) (ht : d + p = t) (hlen : (shards.length : Int) = t) :
    (∃ st2, probeLoop enc t true p ⟨shards, row, []⟩ = some st2 ∧
      ∀ a ∈ st2.calls.dropLast, a.ok = true) ∧
    (∃ st2, probeLoop enc t false p ⟨shards, row, []⟩ = some st2 ∧
      st2.calls.map Attempt.step
        = (List.range (p - 1).toNat).map (fun (k : Nat) => p - (k : Int)) ∧
      st2.tablerow = row) := by
  constructor
  · obtain ⟨st2, new, h1, -, h3, -, -, h6, -⟩ :=
      probeLoop_spec enc t true p ⟨shards, row, []⟩ hlen (by omega)
    simp only [List.nil_append] at h3
    subst h3
    exact ⟨st2, h1, h6 rfl⟩
  · obtain ⟨st2, new, h1, -, h3, h4, -, -, h7⟩ :=
      probeLoop_spec enc t false p ⟨shards, row, []⟩ hlen (by omega)
    simp only [List.nil_append] at h3
    subst h3
    rcases h7 with ⟨hf, -⟩ | ⟨hrow, hl, -⟩
    · exact absurd hf (by simp)
    · rw [hl] at h4
      exact ⟨st2, h1, h4, hrow⟩

/-- Witness of the amended C9: configuration `(3, 3)` of `t = 6` with the model codec. -/
theorem probe_stops_when_reporting_witness :
    (∃ st2, probeLoop (modelEncoder 3 3) 6 true 3 ⟨six, [], []⟩ = some st2 ∧
      st2.calls.dropLast.map Attempt.ok = []) ∧
    (∃ st2, probeLoop (modelEncoder 3 3) 6 false 3 ⟨six, [], []⟩ = some st2 ∧
      st2.calls.map Attempt.step = [3, 2] ∧ st2.tablerow = []) := by
  obtain ⟨⟨st2, h1, -⟩, ⟨st3, g1, g2, g3⟩⟩ :=
    probe_stops_when_reporting (modelEncoder 3 3) 6 3 3 six [] (by decide) (by decide)
      (by decide)
  refine ⟨⟨st2, h1, ?_⟩, ⟨st3, g1, ?_, g3⟩⟩
  · rw [probe_six] at h1
    cases h1
    rfl
  · rw [g2]
    decide

/-- C10. For every accepted `t`, every visited configuration `(d, p)` (one with which
`main` starts an iteration of the sweep loop), every probe step `2 ≤ i ≤ p` and every
`1 ≤ j ≤ i + 1`, the index `t - j` written by the nil-out loop satisfies
`d - 1 ≤ t - j ≤ t - 1`, lies inside a shard set of `d + p = t` shards, so the assignment
does not panic; the index `d - 1` is written only at `i = p` (with `j = p + 1`); the
nil-out loop and the whole probe loop return without a panic for every encoder. -/
theorem probe_index_safe (env : Env) (nargs : Nat) (t : Int) (flag : Bool) (d p : Int)
    (hacc : Accepted t) (hv : (d, p) ∈ (main env nargs t flag).visited) :
    p ≥ 2 ∧
    (∀ i j : Int, 2 ≤ i → i ≤ p → 1 ≤ j → j ≤ i + 1 →
      d - 1 ≤ t - j ∧ t - j ≤ t - 1 ∧ 0 ≤ t - j ∧ t - j < d + p ∧
      (t - j = d - 1 ↔ i = p ∧ j = p + 1) ∧
      ∀ s : Shards, (s.length : Int) = d + p →
        setNil s (t - j) = some (s.set (t - j).toNat none)) ∧
    (∀ (i : Int) (s : Shards), 2 ≤ i → i ≤ p → (s.length : Int) = d + p →
      nilLoop t i 1 s = some (nilTail (i + 1).toNat s)) ∧
    (∀ (enc : Encoder) (fl : Bool) (st : ProbeState), (st.shards.length : Int) = d + p →
      ∃ st2, probeLoop enc t fl p st = some st2) := by
  obtain ⟨h1, h2, h3, h4⟩ := visited_inv env nargs t flag hacc d p hv
  refine ⟨h3, ?_, ?_, ?_⟩
  · intro i j hi2 hip hj1 hji
    refine ⟨by omega, by omega, by omega, by omega, by omega, ?_⟩
    intro s hs
    unfold setNil
    rw [if_pos ⟨by omega, by omega⟩]
  · intro i s hi2 hip hs
    exact nilLoop_full t i s (by omega) (by omega) (by omega)
  · intro enc fl st hs
    obtain ⟨st2, -, h, -⟩ := probeLoop_spec enc t fl p st (by omega) (by omega)
    exact ⟨st2, h⟩

/-- Witness of C10: `t = 6`, the first visited configuration `(3, 3)`, step `i = 3`,
`j = 4`: the index `6 - 4 = 2 = d - 1` is inside the six shards and the probe loop
returns. -/
theorem probe_index_safe_witness :
    Accepted 6 ∧ (3, 3) ∈ (main (modelEnv payload7 7) 0 6 true).visited ∧
    ((3 : Int) - 1 ≤ 6 - 4 ∧ (6 : Int) - 4 ≤ 6 - 1) ∧
    setNil six (6 - 4) = some (six.set 2 none) ∧
    nilLoop 6 3 1 six = some (nilTail 4 six) ∧
    ∃ st2, probeLoop (modelEncoder 3 3) 6 false 3 ⟨six, [], []⟩ = some st2 := by
  have hv : ((3 : Int), (3 : Int)) ∈ (main (modelEnv payload7 7) 0 6 true).visited := by
    rw [visited_six]; simp
  obtain ⟨-, h1, h2, h3⟩ := probe_index_safe (modelEnv payload7 7) 0 6 true 3 3 accepted_six hv
  obtain ⟨a1, a2, -, -, -, a6⟩ := h1 3 4 (by decide) (by decide) (by decide) (by decide)
  exact ⟨accepted_six, hv, ⟨a1, a2⟩, a6 six (by decide),
    h2 3 six (by decide) (by decide) (by decide), h3 (modelEncoder 3 3) false ⟨six, [], []⟩ (by decide)⟩

end Erasure
